import Mathlib

/-!
Verification development for the dependency-graph engine of this repository
(`main.py`): fixture parsing (`load_test_graph`), graph construction by DFS
(`build_graph_real_dfs`, `build_graph_test_dfs`), topological ordering with
cycle detection (`topo_load_order`), Mermaid text rendering (`build_mermaid`),
BFS layout (`positions_bfs`) and the SVG edge renderer (`render_svg`).

Python dictionaries are embedded as insertion-ordered association lists
`List (String × α)` with unique keys; Python sets are embedded by their
membership (and, where the code iterates over a set, the iteration order is
made an explicit parameter, constrained to be a permutation of the set's
elements).  Python string operations are re-implemented on `String.data`
(lists of characters) so that everything evaluates inside the kernel.
Recursions whose termination depends on data (the DFS traversals, Kahn's
queue loop, the BFS levelling loop) are embedded structurally with an
explicit fuel argument; the fuel passed by the top-level wrappers is proved
(or in the BFS case argued from the same bound) to be large enough that the
fuel-exhaustion branch is never taken, so the embedded functions compute the
same results as the Python loops.
-/

/-- Association-list lookup, mirroring Python `dict.__getitem__`/`dict.get`:
the first binding of the key wins (keys are unique in every list we build). -/
def alookup {α : Type} : List (String × α) → String → Option α
  | [], _ => none
  | (k, v) :: rest, key => if k = key then some v else alookup rest key

/-- Association-list insert-or-replace, mirroring Python `d[k] = v`:
an existing binding keeps its position and gets the new value, a new key is
appended at the end (dict insertion order). -/
def dinsert {α : Type} : List (String × α) → String → α → List (String × α)
  | [], k, v => [(k, v)]
  | (k', v') :: rest, k, v =>
    if k' = k then (k', v) :: rest else (k', v') :: dinsert rest k v

/-- A dependency graph: `main.py` represents it as a dict mapping a node name
to the ordered list of its direct dependency names. -/
abbrev Graph := List (String × List String)

/-- The keys of the graph dict, in insertion order. -/
def keysOf (g : Graph) : List String := g.map Prod.fst

/-- Python `graph.get(n, [])`. -/
def depsOf (g : Graph) (n : String) : List String := (alookup g n).getD []

/-- Keep-first-occurrence accumulation, modelling insertion into a Python
set whose iteration order we track as first-insertion order. -/
def insertUniq (l : List String) (x : String) : List String :=
  if x ∈ l then l else l ++ [x]

/-- The node universe of a graph in first-occurrence order: all dict keys
followed by all dependency values, deduplicated.  This models
`nodes = set(graph.keys()); for deps in graph.values(): nodes.update(deps)`
as it appears in `topo_load_order`, `build_mermaid` and `positions_bfs`
(membership-wise; iteration order of the Python set is unspecified, which is
why functions that iterate over it take the order as a parameter). -/
def universeList (g : Graph) : List String :=
  (g.map Prod.fst ++ g.flatMap Prod.snd).foldl insertUniq []

/-! ### Character-level string operations

Python's `str.strip`, `str.split`, `str.startswith`, `str.lower` and `':' in s`
are re-implemented on the character list `s.data`, because the corresponding
Lean `String` functions are byte-iterator based and do not reduce in the
kernel. -/

/-- The characters stripped by Python `str.strip()` with no argument. -/
def isPySpace (c : Char) : Bool :=
  c = (' ') ∨ c = ('\t') ∨ c = ('\n') ∨ c = ('\r') ∨ c.toNat = 11 ∨ c.toNat = 12

/-- Python `s.strip()`. -/
def pyStrip (s : String) : String :=
  String.mk (((s.data.dropWhile isPySpace).reverse.dropWhile isPySpace).reverse)

/-- Python `s.startswith(p)` for a single-character prefix. -/
def startsWithChar (s : String) (c : Char) : Bool :=
  match s.data with
  | [] => false
  | x :: _ => x = c

/-- Python `s.split(c, 1)`: `none` when the separator does not occur,
otherwise the part before the first occurrence and the part after it. -/
def splitFirst (s : String) (c : Char) : Option (String × String) :=
  match s.data.dropWhile (fun x => !(x = c)) with
  | [] => none
  | _ :: rest => some (String.mk (s.data.takeWhile (fun x => !(x = c))), String.mk rest)

/-- Python `s.split()` (whitespace split, empty pieces dropped) composed with
the per-token `d.strip()` of the list comprehension in `load_test_graph`;
on such tokens the strip is the identity, but we keep it for faithfulness. -/
def pyTokens (s : String) : List String :=
  ((splitWs s.data).map (fun l => pyStrip (String.mk l))).filter (fun t => !(t = ""))
where
  /-- Split a character list on whitespace runs (empty runs included; they are
  filtered out above, matching Python `str.split()` with no argument). -/
  splitWs : List Char → List (List Char)
    | [] => [[]]
    | c :: rest =>
      let r := splitWs rest
      if isPySpace c then [] :: r
      else match r with
        | [] => [[c]]
        | w :: ws => (c :: w) :: ws

/-- Python `s.lower()` for the ASCII range (the only case exercised by
NuGet package identifiers, which `main.py` validates against
`[A-Za-z0-9._-]`). -/
def pyLower (s : String) : String :=
  String.mk (s.data.map (fun c =>
    if 65 ≤ c.toNat ∧ c.toNat ≤ 90 then Char.ofNat (c.toNat + 32) else c))

/-- Python `s.splitlines()`-like division used by `for line in open(p)`:
text-mode line iteration splits at newline characters. -/
def splitLines (s : String) : List String :=
  (splitNl s.data).map String.mk
where
  splitNl : List Char → List (List Char)
    | [] => [[]]
    | c :: rest =>
      let r := splitNl rest
      if c = ('\n') then [] :: r
      else match r with
        | [] => [[c]]
        | w :: ws => (c :: w) :: ws

/-! ### Fixture parsing (`load_test_graph`) -/

/-- One iteration of the line loop in `load_test_graph`: skip blank and `#`
lines, raise `ValueError` (modelled as `Except.error`) on a line without a
`:` separator, otherwise `g[name.strip()] = [d.strip() for d in deps.split()
if d.strip()]`. -/
def parseFixtureLine (g : Graph) (line : String) : Except String Graph :=
  let s := pyStrip line
  if s = ("") then Except.ok g
  else if startsWithChar s ('#') then Except.ok g
  else match splitFirst s (':') with
    | none => Except.error ("incorrect line: " ++ s)
    | some (name, deps) => Except.ok (dinsert g (pyStrip name) (pyTokens deps))

/-- The line loop of `load_test_graph`; an error aborts the remaining lines
(a raised `ValueError` propagates). -/
def loadLines (g : Graph) : List String → Except String Graph
  | [] => Except.ok g
  | l :: ls =>
    match parseFixtureLine g l with
    | Except.error e => Except.error e
    | Except.ok g' => loadLines g' ls

/-- `load_test_graph`, applied to the text content of the fixture file
(existence checking and file I/O are outside the embedded core). -/
def load_test_graph (content : String) : Except String Graph :=
  loadLines [] (splitLines content)

/-! ### Graph construction (`build_graph_test_dfs`, `build_graph_real_dfs`) -/

/-- The recursive `dfs` of `build_graph_test_dfs`: case-SENSITIVE visited
check `if n in seen`, `graph[n] = repo_graph.get(n, [])`, then recursion into
each dependency in order.  `fuel` bounds the recursion depth; the wrapper
passes more fuel than the traversal can ever use, so the `0` branch is dead. -/
def testDfs (repo : Graph) : Nat → String → Graph × List String → Graph × List String
  | 0, _, st => st
  | fuel + 1, n, st =>
    if n ∈ st.2 then st
    else
      let deps := depsOf repo n
      let st1 := (dinsert st.1 n deps, st.2 ++ [n])
      deps.foldl (fun s d => testDfs repo fuel d s) st1

/-- `build_graph_test_dfs(repo_graph, root_name)`.  The fuel
`(universeList repo).length + 2` exceeds the maximal recursion depth: every
recursive level adds one previously-unseen node to `seen`, and all visited
nodes other than the root are dependency values, hence in `universeList`. -/
def build_graph_test_dfs (repo : Graph) (root : String) : Graph :=
  (testDfs repo ((universeList repo).length + 2) root ([], [])).1

/-- Python `dv or root_ver` (`None` and the empty string both fall back). -/
def pyOr (dv : Option String) (rv : String) : String :=
  match dv with
  | none => rv
  | some s => if s = ("") then rv else s

/-- The recursive `dfs` of `build_graph_real_dfs`.  The provider function
models `extract_direct_deps(fetch_nuspec(repo_url, name, ver))`: it returns
the ordered `(id, version)` pairs of the `.nuspec`, or fails (network /
archive / parse error), and a failure propagates like the uncaught Python
exception.  The visited check is case-INSENSITIVE: `key = name.lower()`. -/
def realDfs (prov : String → String → Except Unit (List (String × Option String)))
    (rootVer : String) :
    Nat → String → String → Graph × List String → Except Unit (Graph × List String)
  | 0, _, _, st => Except.ok st
  | fuel + 1, name, ver, st =>
    if pyLower name ∈ st.2 then Except.ok st
    else match prov name ver with
      | Except.error e => Except.error e
      | Except.ok deps =>
        let st1 := (dinsert st.1 name (deps.map Prod.fst), st.2 ++ [pyLower name])
        deps.foldlM (fun s p => realDfs prov rootVer fuel p.1 (pyOr p.2 rootVer) s) st1

/-- `build_graph_real_dfs(repo_url, root_name, root_ver)` with the remote
lookup abstracted into `prov` and the recursion depth bounded by `fuel`
(the Python recursion is unbounded in exactly the same situations in which
the fuel can run out: a provider reporting ever-new package names). -/
def build_graph_real_dfs (prov : String → String → Except Unit (List (String × Option String)))
    (fuel : Nat) (root rootVer : String) : Except Unit Graph :=
  (realDfs prov rootVer fuel root rootVer ([], [])).map Prod.fst

/-! ### Topological sort (`topo_load_order`) -/

/-- The reverse-adjacency list `rev[v]` built by
`for n, deps in graph.items(): for d in deps: rev[d].append(n)`:
each key `n` is appended once per occurrence of `v` in its dependency list,
in dict iteration order. -/
def revList (g : Graph) (v : String) : List String :=
  g.flatMap (fun p => List.replicate (p.2.count v) p.1)

/-- `indeg[w] -= 1` on the indegree dict (`Int`-valued, like a Python int:
the check after the decrement is an equality test against `0`). -/
def adecr : List (String × Int) → String → List (String × Int)
  | [], _ => []
  | (k, v) :: rest, w => (if k = w then (k, v - 1) else (k, v)) :: adecr rest w

/-- The inner loop of Kahn's algorithm:
`for w in rev[v]: indeg[w] -= 1; if indeg[w] == 0: q.append(w)`. -/
def stepList : List String → List String → List (String × Int) →
    List String × List (String × Int)
  | [], q, m => (q, m)
  | w :: ws, q, m =>
    let d := (alookup m w).getD 0 - 1
    let m' := adecr m w
    stepList ws (if d = 0 then q ++ [w] else q) m'

/-- Fuel measure for the Kahn loop: queue length plus total residual
indegree (each iteration strictly decreases it). -/
def isum (m : List (String × Int)) : Nat := (m.map (fun p => p.2.toNat)).sum

/-- The `while q:` loop of `topo_load_order`: pop from the left, append the
node to the order, decrement its dependents.  Structural in `fuel`; the
caller passes `q.length + isum m + 1`, which lemma `stepList_measure` below
shows can never be exhausted. -/
def kahnRun (rev : String → List String) :
    Nat → List String → List (String × Int) → List String →
    List String × List (String × Int)
  | 0, _, m, o => (o, m)
  | _ + 1, [], m, o => (o, m)
  | fuel + 1, v :: rest, m, o =>
    let p := stepList (rev v) rest m
    kahnRun rev fuel p.1 p.2 (o ++ [v])

/-- The indegree dict after the counting loops of `topo_load_order`:
`indeg = {n: 0 for n in nodes}` followed by
`for n, deps in graph.items(): for d in deps: indeg[n] += 1`, so a key holds
the length of its dependency list and every other node holds `0`. -/
def kahnInit (g : Graph) (enum : List String) : List (String × Int) :=
  enum.map (fun n => (n, ((depsOf g n).length : Int)))

/-- The initial queue `deque(n for n in nodes if indeg[n] == 0)`. -/
def kahnSeed (g : Graph) (enum : List String) : List String :=
  enum.filter (fun n => decide ((alookup (kahnInit g enum) n).getD 0 = 0))

/-- `topo_load_order(graph)`.  `enum` is the iteration order of the Python
set `nodes` (used to seed the indegree dict, the initial queue and the final
cycle list); it is constrained in all theorems to be a permutation of
`universeList graph`.  Returns `(order, cyc)`, where `cyc` is computed from
the residual indegrees left in the dict by the loop. -/
def topo_load_order (enum : List String) (g : Graph) : List String × List String :=
  let r := kahnRun (revList g)
    ((kahnSeed g enum).length + isum (kahnInit g enum) + 1)
    (kahnSeed g enum) (kahnInit g enum) []
  (r.1, enum.filter (fun n => decide (0 < (alookup r.2 n).getD 0)))

/-- `topo_load_order` run with the canonical (first-occurrence) enumeration
of the node set. -/
def topo_canon (g : Graph) : List String × List String :=
  topo_load_order (universeList g) g

/-! ### Acyclicity

`Acyclic` is the finite characterisation of "no directed cycle": no node of
the universe reaches itself by a non-empty path of length at most the size
of the universe (any cycle repeats a node within that many steps). -/

/-- Nodes reachable from `n` by a dependency path of length `1..k`. -/
def reachUpTo (g : Graph) : Nat → String → List String
  | 0, _ => []
  | k + 1, n => depsOf g n ++ (depsOf g n).flatMap (reachUpTo g k)

/-- The graph has no directed cycle. -/
def Acyclic (g : Graph) : Prop :=
  ∀ n ∈ universeList g, n ∉ reachUpTo g (universeList g).length n

instance (g : Graph) : Decidable (Acyclic g) := by
  unfold Acyclic; infer_instance

/-! ### Mermaid text rendering (`build_mermaid`) -/

/-- Code-point comparison of character lists, i.e. Python string `<=`
restricted to what `sorted` needs. -/
def lexLe : List Char → List Char → Bool
  | [], _ => true
  | _ :: _, [] => false
  | a :: as, b :: bs =>
    if a.toNat < b.toNat then true
    else if a.toNat = b.toNat then lexLe as bs else false

/-- Python `s1 <= s2` on strings. -/
def strLe (a b : String) : Prop := lexLe a.data b.data = true

instance : DecidableRel strLe := fun a b => by unfold strLe; infer_instance

/-- Python `sorted` on a list of strings. -/
def sortStr (l : List String) : List String := List.insertionSort strLe l

/-- `build_mermaid(graph)`.  `enum` is the iteration order of the Python set
`nodes`; the function immediately sorts it, so the output cannot depend on
it (proved for claim C7). -/
def build_mermaid (enum : List String) (g : Graph) : String :=
  let isolated := (sortStr enum).filter (fun n => decide (depsOf g n = []))
  let lines := ("graph TD") ::
    (isolated.map (fun n => ("\t") ++ n) ++
     (sortStr (keysOf g)).flatMap (fun s =>
       (sortStr (depsOf g s)).map (fun d => ("\t") ++ s ++ (" --> ") ++ d)))
  String.intercalate ("\n") lines

/-! ### BFS layout (`positions_bfs`) -/

/-- The node set of `positions_bfs` in first-occurrence order: the universe,
plus the root if missing (`if root not in nodes: nodes.add(root)`). -/
def nodesList (g : Graph) (root : String) : List String :=
  insertUniq (universeList g) root

/-- The `while q:` BFS levelling loop: pop `v`, give each not-yet-levelled
dependency level `lvl[v] + 1` and enqueue it. -/
def bfsLoop (g : Graph) :
    Nat → List String → List (String × Nat) → List (String × Nat)
  | 0, _, lvl => lvl
  | _ + 1, [], lvl => lvl
  | fuel + 1, v :: rest, lvl =>
    let st := (depsOf g v).foldl
      (fun (p : List (String × Nat) × List String) d =>
        if (alookup p.1 d).isSome then p
        else (p.1 ++ [(d, (alookup p.1 v).getD 0 + 1)], p.2 ++ [d]))
      (lvl, rest)
    bfsLoop g fuel st.2 st.1

/-- The level dict `lvl` computed by `positions_bfs` (seeded with
`{root: 0}`).  Fuel: every dequeue matches one earlier enqueue, every
enqueue inserts a new `lvl` key, and `lvl` keys are the root plus dependency
values, so at most `(nodesList g root).length` iterations can occur. -/
def bfsLevels (g : Graph) (root : String) : List (String × Nat) :=
  bfsLoop g ((nodesList g root).length + 2) [root] [(root, 0)]

/-- `per.setdefault(l, []).append(n)` over the level dict in insertion
order. -/
def groupLevels (lvl : List (String × Nat)) : List (Nat × List String) :=
  lvl.foldl (fun per p => psetdefault per p.2 p.1) []
where
  psetdefault : List (Nat × List String) → Nat → String → List (Nat × List String)
    | [], l, n => [(l, [n])]
    | (l', arr) :: rest, l, n =>
      if l' = l then (l', arr ++ [n]) :: rest
      else (l', arr) :: psetdefault rest l n

/-- `positions_bfs(graph, root)`.  `enum` is the iteration order of the
Python set `nodes`, used only by the final unreachable-node fallback loop
`for n in nodes: if n not in pos: pos[n] = (100, 100 + len(pos) * ystep)`;
all theorems constrain it to a permutation of `nodesList g root`. -/
def positions_bfs (enum : List String) (g : Graph) (root : String) :
    List (String × (Int × Int)) :=
  let per := (groupLevels (bfsLevels g root)).map (fun p => (p.1, sortStr p.2))
  let pos := per.foldl
    (fun pos p =>
      pos ++ (sortStr p.2).enum.map
        (fun q => (q.2, ((100 + (p.1 : Int) * 200, 100 + (q.1 : Int) * 100)))))
    []
  enum.foldl
    (fun pos n =>
      if (alookup pos n).isSome then pos
      else pos ++ [(n, (100, 100 + (pos.length : Int) * 100))])
    pos

/-! ### SVG edge rendering (`render_svg`)

Only the edge-drawing loop is modelled (the canvas size computation and the
node circles/labels are not subject to any claim).  Each emitted `<line>`
element is recorded together with the edge that generated it.  Coordinate
arithmetic (`math.hypot`, the `10.0 / length` scale) is idealised over the
exact reals; Python floats approximate these values. -/

/-- An emitted `<line .../>` element: the generating edge direction and the
two endpoints written into the `x1,y1,x2,y2` attributes. -/
structure SvgLine where
  src : String
  dst : String
  p1 : ℝ × ℝ
  p2 : ℝ × ℝ

/-- The perpendicular offset `(px, py)` computed for a mutual edge:
`length = math.hypot(dx, dy) or 1.0; scale = 10.0 / length;
px = -dy * scale; py = dx * scale`. -/
noncomputable def lineOffset (dx dy : Int) : ℝ × ℝ :=
  let length : ℝ :=
    if dx = 0 ∧ dy = 0 then 1 else Real.sqrt ((dx : ℝ) ^ 2 + (dy : ℝ) ^ 2)
  (-(dy : ℝ) * (10 / length), (dx : ℝ) * (10 / length))

/-- The edge list `[(s, d) for s, deps in graph.items() for d in deps]`. -/
def edgesOf (g : Graph) : List (String × String) :=
  g.flatMap (fun p => p.2.map (fun d => (p.1, d)))

/-- One iteration of the edge-drawing loop of `render_svg`, acting on the
state `(processed_pairs, parts)`.  A mutual pair `(s, d)`/`(d, s)` not yet
processed emits two offset lines and marks both directions processed; a
one-directional edge emits one plain line; anything else emits nothing. -/
noncomputable def svgEdgeStep (pos : List (String × (Int × Int)))
    (edges : List (String × String))
    (st : List (String × String) × List SvgLine) (e : String × String) :
    List (String × String) × List SvgLine :=
  let s := e.1
  let d := e.2
  let c1 := (alookup pos s).getD (0, 0)
  let c2 := (alookup pos d).getD (0, 0)
  if (d, s) ∈ edges ∧ (s, d) ∉ st.1 ∧ (d, s) ∉ st.1 then
    let off := lineOffset (c2.1 - c1.1) (c2.2 - c1.2)
    (st.1 ++ [(s, d), (d, s)],
     st.2 ++
       [⟨s, d, ((c1.1 : ℝ) + off.1, (c1.2 : ℝ) + off.2),
               ((c2.1 : ℝ) + off.1, (c2.2 : ℝ) + off.2)⟩,
        ⟨d, s, ((c2.1 : ℝ) - off.1, (c2.2 : ℝ) - off.2),
               ((c1.1 : ℝ) - off.1, (c1.2 : ℝ) - off.2)⟩])
  else if (d, s) ∉ edges then
    (st.1, st.2 ++ [⟨s, d, ((c1.1 : ℝ), (c1.2 : ℝ)), ((c2.1 : ℝ), (c2.2 : ℝ))⟩])
  else st

/-- The `<line>` elements emitted by `render_svg`'s edge loop, in order. -/
noncomputable def svgEdgeLines (g : Graph) (pos : List (String × (Int × Int))) :
    List SvgLine :=
  ((edgesOf g).foldl (svgEdgeStep pos (edgesOf g)) ([], [])).2

/-! ### Basic lemmas about the dictionary and set embeddings -/

theorem alookup_isSome_iff {α : Type} (l : List (String × α)) (k : String) :
    (alookup l k).isSome = true ↔ k ∈ l.map Prod.fst := by
  induction l with
  | nil => simp [alookup]
  | cons p rest ih =>
    obtain ⟨k', v'⟩ := p
    by_cases h : k' = k <;> simp [alookup, h, ih]
    exact fun hh => (h hh.symm).elim

theorem alookup_eq_none {α : Type} (l : List (String × α)) (k : String)
    (h : k ∉ l.map Prod.fst) : alookup l k = none := by
  cases hl : alookup l k with
  | none => rfl
  | some v =>
    exfalso
    exact h ((alookup_isSome_iff l k).mp (by simp [hl]))

theorem alookup_mem {α : Type} {l : List (String × α)} {k : String} {v : α}
    (h : alookup l k = some v) : (k, v) ∈ l := by
  induction l with
  | nil => simp [alookup] at h
  | cons p rest ih =>
    obtain ⟨k', v'⟩ := p
    by_cases hk : k' = k
    · subst hk
      simp [alookup] at h
      simp [h]
    · simp [alookup, hk] at h
      exact List.mem_cons_of_mem _ (ih h)

theorem mem_alookup {α : Type} {l : List (String × α)} {k : String} {v : α}
    (hnd : (l.map Prod.fst).Nodup) (h : (k, v) ∈ l) : alookup l k = some v := by
  induction l with
  | nil => simp at h
  | cons p rest ih =>
    obtain ⟨k', v'⟩ := p
    simp only [List.map_cons, List.nodup_cons] at hnd
    rcases List.mem_cons.mp h with h1 | h1
    · have hk : k = k' := congrArg Prod.fst h1
      have hv : v = v' := congrArg Prod.snd h1
      subst hk
      subst hv
      simp [alookup]
    · have hk : k' ≠ k := by
        intro he
        apply hnd.1
        rw [he]
        exact List.mem_map.mpr ⟨(k, v), h1, rfl⟩
      simp [alookup, hk]
      exact ih hnd.2 h1

theorem alookup_append {α : Type} (l₁ l₂ : List (String × α)) (k : String) :
    alookup (l₁ ++ l₂) k = (alookup l₁ k).or (alookup l₂ k) := by
  induction l₁ with
  | nil => simp [alookup]
  | cons p rest ih =>
    obtain ⟨k', v'⟩ := p
    by_cases h : k' = k <;> simp [alookup, h, ih]

theorem dinsert_of_not_mem {α : Type} {g : List (String × α)} {k : String} (v : α)
    (h : k ∉ g.map Prod.fst) : dinsert g k v = g ++ [(k, v)] := by
  induction g with
  | nil => simp [dinsert]
  | cons p rest ih =>
    obtain ⟨k', v'⟩ := p
    simp only [List.map_cons, List.mem_cons] at h
    push_neg at h
    have hne : ¬ k' = k := fun he => h.1 he.symm
    simp [dinsert, hne, ih h.2]

theorem mem_insertUniq (l : List String) (x y : String) :
    y ∈ insertUniq l x ↔ y ∈ l ∨ y = x := by
  unfold insertUniq
  split <;> rename_i h
  · constructor
    · exact fun hy => Or.inl hy
    · rintro (hy | rfl)
      · exact hy
      · exact h
  · simp

theorem nodup_insertUniq (l : List String) (x : String) (h : l.Nodup) :
    (insertUniq l x).Nodup := by
  unfold insertUniq
  split <;> rename_i hm
  · exact h
  · simpa [List.nodup_append] using ⟨h, hm⟩

theorem mem_foldl_insertUniq (l : List String) (acc : List String) (x : String) :
    x ∈ l.foldl insertUniq acc ↔ x ∈ acc ∨ x ∈ l := by
  induction l generalizing acc with
  | nil => simp
  | cons a rest ih =>
    simp only [List.foldl_cons, ih, mem_insertUniq, List.mem_cons]
    constructor
    · rintro ((h | rfl) | h) <;> tauto
    · rintro (h | (rfl | h)) <;> tauto

theorem nodup_foldl_insertUniq (l : List String) (acc : List String)
    (h : acc.Nodup) : (l.foldl insertUniq acc).Nodup := by
  induction l generalizing acc with
  | nil => exact h
  | cons a rest ih => exact ih _ (nodup_insertUniq _ _ h)

theorem mem_universeList (g : Graph) (x : String) :
    x ∈ universeList g ↔ x ∈ keysOf g ∨ ∃ p ∈ g, x ∈ p.2 := by
  unfold universeList keysOf
  rw [mem_foldl_insertUniq]
  simp [List.mem_flatMap]

theorem nodup_universeList (g : Graph) : (universeList g).Nodup :=
  nodup_foldl_insertUniq _ _ List.nodup_nil

theorem keys_subset_universe {g : Graph} {x : String} (h : x ∈ keysOf g) :
    x ∈ universeList g :=
  (mem_universeList g x).mpr (Or.inl h)

theorem dep_mem_universe {g : Graph} {p : String × List String} {d : String}
    (hp : p ∈ g) (hd : d ∈ p.2) : d ∈ universeList g :=
  (mem_universeList g d).mpr (Or.inr ⟨p, hp, hd⟩)

theorem depsOf_subset_universe {g : Graph} {n d : String}
    (hd : d ∈ depsOf g n) : d ∈ universeList g := by
  unfold depsOf at hd
  cases hl : alookup g n with
  | none => rw [hl] at hd; simp at hd
  | some ds =>
    rw [hl] at hd
    exact dep_mem_universe (alookup_mem hl) hd

theorem depsOf_eq_nil_of_not_key {g : Graph} {n : String}
    (h : n ∉ keysOf g) : depsOf g n = [] := by
  unfold depsOf
  rw [alookup_eq_none _ _ h]
  rfl

theorem not_key_of_not_mem_universe {g : Graph} {n : String}
    (h : n ∉ universeList g) : n ∉ keysOf g :=
  fun hk => h (keys_subset_universe hk)

/-! ### Claim C8: fixture-line handling in `load_test_graph` -/

theorem alookup_dinsert_self {α : Type} (g : List (String × α)) (k : String) (v : α) :
    alookup (dinsert g k v) k = some v := by
  induction g with
  | nil => simp [dinsert, alookup]
  | cons p rest ih =>
    obtain ⟨k', v'⟩ := p
    by_cases h : k' = k <;> simp [dinsert, alookup, h, ih]

theorem dropWhile_ne_eq_nil_iff (l : List Char) (c : Char) :
    l.dropWhile (fun x => !(x = c)) = [] ↔ c ∉ l := by
  rw [List.dropWhile_eq_nil_iff]
  constructor
  · intro h hc
    have := h c hc
    simp at this
  · intro h x hx
    simp only [Bool.not_eq_true', decide_eq_false_iff_not]
    intro he
    exact h (he ▸ hx)

theorem splitFirst_eq_none_iff (s : String) (c : Char) :
    splitFirst s c = none ↔ c ∉ s.data := by
  unfold splitFirst
  cases hd : s.data.dropWhile (fun x => !(x = c)) with
  | nil =>
    simpa using (dropWhile_ne_eq_nil_iff s.data c).mp hd
  | cons a rest =>
    simp only [reduceCtorEq, false_iff, not_not]
    by_contra hc
    rw [(dropWhile_ne_eq_nil_iff s.data c).mpr hc] at hd
    simp at hd

/-- Claim C8: in `load_test_graph`, blank lines and lines starting with `#`
are ignored; a non-blank non-comment line with no `:` separator raises an
error which aborts the processing of all remaining lines; every other line
stores under the stripped name before the first `:` the whitespace-separated
dependency tokens after it. -/
theorem fixture_line_handling :
    (∀ g line, pyStrip line = ("") ∨ startsWithChar (pyStrip line) ('#') = true →
      parseFixtureLine g line = Except.ok g)
  ∧ (∀ g line ls e, parseFixtureLine g line = Except.error e →
      loadLines g (line :: ls) = Except.error e)
  ∧ (∀ g line, ¬ pyStrip line = ("") → startsWithChar (pyStrip line) ('#') = false →
      (':') ∉ (pyStrip line).data →
      parseFixtureLine g line = Except.error (("incorrect line: ") ++ pyStrip line))
  ∧ (∀ g line name rest, ¬ pyStrip line = ("") →
      startsWithChar (pyStrip line) ('#') = false →
      splitFirst (pyStrip line) (':') = some (name, rest) →
      parseFixtureLine g line = Except.ok (dinsert g (pyStrip name) (pyTokens rest)) ∧
      alookup (dinsert g (pyStrip name) (pyTokens rest)) (pyStrip name) =
        some (pyTokens rest)) := by
  refine ⟨?_, ?_, ?_, ?_⟩
  · intro g line h
    rcases h with h | h
    · simp [parseFixtureLine, h]
    · unfold parseFixtureLine
      by_cases hb : pyStrip line = ("") <;> simp [hb, h]
  · intro g line ls e h
    simp [loadLines, h]
  · intro g line hb hh hc
    unfold parseFixtureLine
    rw [if_neg hb, if_neg (by simp [hh]),
      (splitFirst_eq_none_iff (pyStrip line) (':')).mpr hc]
  · intro g line name rest hb hh hs
    unfold parseFixtureLine
    rw [if_neg hb, if_neg (by simp [hh]), hs]
    exact ⟨rfl, alookup_dinsert_self g (pyStrip name) (pyTokens rest)⟩

/-- Witness for C8: the conjuncts of `fixture_line_handling` applied at
concrete lines (a blank line, a comment line, a separator-free line aborting
the remaining lines, and an ordinary `name: deps` line). -/
theorem fixture_line_handling_witness :
    (parseFixtureLine [] ("   ") = Except.ok [] ∧
     parseFixtureLine [("X", [])] ("# comment") = Except.ok [("X", [])]) ∧
    (loadLines [] [("no separator here"), ("A: B")] =
      Except.error (("incorrect line: ") ++ pyStrip ("no separator here"))) ∧
    (parseFixtureLine [] (" A : B  C ") =
      Except.ok (dinsert [] (pyStrip ("A ")) (pyTokens (" B  C"))) ∧
     alookup (dinsert ([] : Graph) (pyStrip ("A ")) (pyTokens (" B  C")))
        (pyStrip ("A ")) = some (pyTokens (" B  C"))) := by
  obtain ⟨h1, h2, h3, h4⟩ := fixture_line_handling
  have hmain := h4 [] (" A : B  C ") ("A ") (" B  C")
    (by decide) (by decide) (by decide)
  exact ⟨⟨h1 [] ("   ") (Or.inl (by decide)),
          h1 [("X", [])] ("# comment") (Or.inr (by decide))⟩,
         h2 [] ("no separator here") [("A: B")] _
           (h3 [] ("no separator here") (by decide) (by decide) (by decide)),
         hmain.1, hmain.2⟩

/-! ### Claims C2 and C3: concrete scenarios -/

deriving instance DecidableEq for Except

/-- The end-to-end fixture text of the spec's test scenario. -/
def fixtureText : String := "App: Lib1 Lib2\nLib1: Core\nLib2: Core\nCore:"

/-- The dependency dict that parsing the fixture produces. -/
def fixtureGraph : Graph :=
  [("App", ["Lib1", "Lib2"]), ("Lib1", ["Core"]), ("Lib2", ["Core"]), ("Core", [])]

/-- Claim C2: parsing the fixture rooted at `App` yields exactly the claimed
graph (as a dict: the stated key/value bindings and no others), the load
order puts `Core` before `Lib1` and `Lib2` and both before `App`, and the
cyclic remainder is empty.  The builder inserts `Core` when it is first
reached (through `Lib1`), so the dict insertion order is
`App, Lib1, Core, Lib2`; as a mapping it is exactly the claimed graph. -/
theorem fixture_end_to_end :
    load_test_graph fixtureText = Except.ok fixtureGraph ∧
    build_graph_test_dfs fixtureGraph ("App") =
      [("App", ["Lib1", "Lib2"]), ("Lib1", ["Core"]), ("Core", []), ("Lib2", ["Core"])] ∧
    (let bg := build_graph_test_dfs fixtureGraph ("App")
     alookup bg ("App") = some [("Lib1"), ("Lib2")] ∧
     alookup bg ("Lib1") = some [("Core")] ∧
     alookup bg ("Lib2") = some [("Core")] ∧
     alookup bg ("Core") = some [] ∧
     (keysOf bg).Perm [("App"), ("Lib1"), ("Lib2"), ("Core")]) ∧
    (let r := topo_canon (build_graph_test_dfs fixtureGraph ("App"))
     r.1 = [("Core"), ("Lib1"), ("Lib2"), ("App")] ∧
     r.1.indexOf ("Core") < r.1.indexOf ("Lib1") ∧
     r.1.indexOf ("Core") < r.1.indexOf ("Lib2") ∧
     r.1.indexOf ("Lib1") < r.1.indexOf ("App") ∧
     r.1.indexOf ("Lib2") < r.1.indexOf ("App") ∧
     r.2 = []) := by
  decide

/-- The two-node cycle of the spec's cycle-detection scenario. -/
def cycleGraph : Graph := [("A", ["B"]), ("B", ["A"])]

/-- Claim C3: on `{A: [B], B: [A]}` the sorter returns an order containing
neither `A` nor `B` and the cyclic remainder `{A, B}`; both come back as
ordinary return values of the total function `topo_load_order` (the Python
code has no raise statement on this path).  Stated for the canonical set
enumeration; claim C9's theorem covers every enumeration. -/
theorem cycle_reported_as_data :
    topo_canon cycleGraph = ([], [("A"), ("B")]) ∧
    ("A") ∉ (topo_canon cycleGraph).1 ∧
    ("B") ∉ (topo_canon cycleGraph).1 ∧
    ((topo_canon cycleGraph).2.Perm [("A"), ("B")]) := by
  decide

/-! ### Invariants of the test-mode DFS (`build_graph_test_dfs`) -/

theorem foldl_rel {β St : Type} (R : St → St → Prop) (f : St → β → St)
    (hrefl : ∀ s, R s s) (htrans : ∀ a b c, R a b → R b c → R a c)
    (hstep : ∀ s b, R s (f s b)) : ∀ (l : List β) (s : St), R s (l.foldl f s) := by
  intro l
  induction l with
  | nil => intro s; exact hrefl s
  | cons b rest ih =>
    intro s
    exact htrans _ _ _ (hstep s b) (ih (f s b))

theorem mem_dinsert {α : Type} {g : List (String × α)} {k : String} {v : α}
    {p : String × α} (h : p ∈ dinsert g k v) : p ∈ g ∨ p = (k, v) := by
  induction g with
  | nil => simpa [dinsert] using h
  | cons q rest ih =>
    obtain ⟨k', v'⟩ := q
    by_cases hk : k' = k
    · subst hk
      simp only [dinsert, if_pos rfl] at h
      rcases List.mem_cons.mp h with h1 | h1
      · exact Or.inr (by simpa using h1)
      · exact Or.inl (List.mem_cons_of_mem _ h1)
    · simp only [dinsert, if_neg hk] at h
      rcases List.mem_cons.mp h with h1 | h1
      · exact Or.inl (by simp [h1])
      · rcases ih h1 with h2 | h2
        · exact Or.inl (List.mem_cons_of_mem _ h2)
        · exact Or.inr h2

/-- State-extension relation preserved by every step of the test DFS:
the visited list grows by appending, every new graph entry binds a node to
its `repo_graph.get(n, [])` list, the keys-equal-seen invariant and
duplicate-freeness of `seen` are preserved. -/
def DfsExt (repo : Graph) (st st' : Graph × List String) : Prop :=
  (∃ e, st'.2 = st.2 ++ e) ∧
  (∀ p ∈ st'.1, p ∈ st.1 ∨ p.2 = depsOf repo p.1) ∧
  (keysOf st.1 = st.2 → keysOf st'.1 = st'.2) ∧
  (st.2.Nodup → st'.2.Nodup)

theorem dfsExt_refl (repo : Graph) (st : Graph × List String) : DfsExt repo st st :=
  ⟨⟨[], by simp⟩, fun p hp => Or.inl hp, id, id⟩

theorem dfsExt_trans (repo : Graph) (a b c : Graph × List String)
    (h1 : DfsExt repo a b) (h2 : DfsExt repo b c) : DfsExt repo a c := by
  obtain ⟨⟨e1, he1⟩, hp1, hk1, hn1⟩ := h1
  obtain ⟨⟨e2, he2⟩, hp2, hk2, hn2⟩ := h2
  refine ⟨⟨e1 ++ e2, by rw [he2, he1, List.append_assoc]⟩, ?_, fun h => hk2 (hk1 h),
    fun h => hn2 (hn1 h)⟩
  intro p hp
  rcases hp2 p hp with h | h
  · exact hp1 p h
  · exact Or.inr h

theorem testDfs_ext (repo : Graph) :
    ∀ (fuel : Nat) (n : String) (st : Graph × List String),
    DfsExt repo st (testDfs repo fuel n st) := by
  intro fuel
  induction fuel with
  | zero => intro n st; exact dfsExt_refl repo st
  | succ fuel ih =>
    intro n st
    show DfsExt repo st (testDfs repo (fuel + 1) n st)
    unfold testDfs
    by_cases hn : n ∈ st.2
    · simpa [hn] using dfsExt_refl repo st
    · simp only [if_neg hn]
      have hstep : DfsExt repo st (dinsert st.1 n (depsOf repo n), st.2 ++ [n]) := by
        refine ⟨⟨[n], rfl⟩, ?_, ?_, ?_⟩
        · intro p hp
          rcases mem_dinsert hp with h | h
          · exact Or.inl h
          · exact Or.inr (by rw [h])
        · intro h
          have hnk : n ∉ keysOf st.1 := by rw [h]; exact hn
          unfold keysOf at hnk ⊢
          rw [dinsert_of_not_mem _ hnk]
          simp [← h, keysOf]
        · intro h
          simp [List.nodup_append, h, hn]
      exact dfsExt_trans repo _ _ _ hstep
        (foldl_rel (DfsExt repo) _ (dfsExt_refl repo) (dfsExt_trans repo)
          (fun s d => ih d s) (depsOf repo n) _)

theorem testDfs_visits (repo : Graph) (fuel : Nat) (n : String)
    (st : Graph × List String) (hf : 1 ≤ fuel) :
    n ∈ (testDfs repo fuel n st).2 := by
  obtain ⟨fuel, rfl⟩ := Nat.exists_eq_add_of_le hf
  rw [Nat.add_comm]
  unfold testDfs
  by_cases hn : n ∈ st.2
  · simp [hn]
  · simp only [if_neg hn]
    obtain ⟨⟨e, he⟩, -, -, -⟩ :=
      foldl_rel (DfsExt repo) _ (dfsExt_refl repo) (dfsExt_trans repo)
        (fun s d => testDfs_ext repo fuel d s) (depsOf repo n)
        (dinsert st.1 n (depsOf repo n), st.2 ++ [n])
    rw [he]
    simp

/-- One dependency step: `b` is a direct dependency of `a` in the fixture. -/
def DepStep (repo : Graph) (a b : String) : Prop := b ∈ depsOf repo a

instance (repo : Graph) (a b : String) : Decidable (DepStep repo a b) := by
  unfold DepStep
  infer_instance

/-- Reachability along fixture dependencies. -/
def ReachDep (repo : Graph) : String → String → Prop :=
  Relation.ReflTransGen (DepStep repo)

theorem testDfs_reach (repo : Graph) :
    ∀ (fuel : Nat) (n : String) (st : Graph × List String) (x : String),
    x ∈ (testDfs repo fuel n st).2 → x ∈ st.2 ∨ ReachDep repo n x := by
  intro fuel
  induction fuel with
  | zero => intro n st x hx; exact Or.inl hx
  | succ fuel ih =>
    intro n st x hx
    rw [show testDfs repo (fuel + 1) n st =
        (if n ∈ st.2 then st
         else (depsOf repo n).foldl (fun s d => testDfs repo fuel d s)
           (dinsert st.1 n (depsOf repo n), st.2 ++ [n])) from rfl] at hx
    by_cases hn : n ∈ st.2
    · rw [if_pos hn] at hx
      exact Or.inl hx
    · rw [if_neg hn] at hx
      have main : ∀ (ds : List String), (∀ d ∈ ds, DepStep repo n d) →
          ∀ (s : Graph × List String),
          (∀ y ∈ s.2, y ∈ st.2 ∨ ReachDep repo n y) →
          ∀ y ∈ (ds.foldl (fun s d => testDfs repo fuel d s) s).2,
          y ∈ st.2 ∨ ReachDep repo n y := by
        intro ds
        induction ds with
        | nil => intro _ s hs y hy; exact hs y hy
        | cons d rest ihds =>
          intro hd s hs y hy
          refine ihds (fun d' hd' => hd d' (List.mem_cons_of_mem _ hd')) _ ?_ y hy
          intro z hz
          rcases ih d s z hz with h | h
          · exact hs z h
          · exact Or.inr (Relation.ReflTransGen.head
              (hd d (List.mem_cons_self d rest)) h)
      refine main (depsOf repo n) (fun d hd => hd) _ ?_ x hx
      intro y hy
      rcases List.mem_append.mp hy with h | h
      · exact Or.inl h
      · simp only [List.mem_singleton] at h
        subst h
        exact Or.inr Relation.ReflTransGen.refl

/-- Number of universe nodes not yet visited; the per-level fuel headroom
needed by the traversal. -/
def slack (repo : Graph) (seen : List String) : Nat :=
  ((universeList repo).filter (fun x => decide (x ∉ seen))).length

theorem slack_mono (repo : Graph) {s1 s2 : List String}
    (h : ∀ x ∈ s1, x ∈ s2) : slack repo s2 ≤ slack repo s1 := by
  unfold slack
  simp only [← List.countP_eq_length_filter]
  apply List.countP_mono_left
  intro x _ hx
  simp only [decide_eq_true_eq] at hx ⊢
  exact fun hx1 => hx (h x hx1)

theorem countP_unseen_lt {U : List String} {seen : List String} {n : String}
    (hU : n ∈ U) (hn : n ∉ seen) :
    List.countP (fun x => decide (x ∉ seen ++ [n])) U <
    List.countP (fun x => decide (x ∉ seen)) U := by
  induction U with
  | nil => simp at hU
  | cons a rest ih =>
    have hle : List.countP (fun x => decide (x ∉ seen ++ [n])) rest ≤
        List.countP (fun x => decide (x ∉ seen)) rest := by
      apply List.countP_mono_left
      intro x _ hx
      simp only [decide_eq_true_eq, List.mem_append, List.mem_singleton] at hx ⊢
      intro h3
      exact hx (Or.inl h3)
    rcases List.mem_cons.mp hU with rfl | ha
    · simp only [List.countP_cons]
      have h1 : (decide (n ∉ seen ++ [n])) = false := by simp
      have h2 : (decide (n ∉ seen)) = true := by simpa using hn
      rw [h1, h2]
      simp only [Bool.false_eq_true, if_false, if_true, Nat.add_zero]
      omega
    · have hlt := ih ha
      simp only [List.countP_cons]
      have hif : (if (decide (a ∉ seen ++ [n])) = true then 1 else 0) ≤
          (if (decide (a ∉ seen)) = true then 1 else 0) := by
        by_cases hmem : a ∈ seen
        · simp [hmem]
        · by_cases han : a = n <;> simp [hmem, han]
      omega

theorem slack_lt (repo : Graph) {seen : List String} {n : String}
    (hU : n ∈ universeList repo) (hn : n ∉ seen) :
    slack repo (seen ++ [n]) < slack repo seen := by
  unfold slack
  simp only [← List.countP_eq_length_filter]
  exact countP_unseen_lt hU hn

/-- Closure of the test DFS, given per-call fuel exceeding the number of
unvisited universe nodes: every graph entry present after the call is either
an old entry or has all its dependencies visited. -/
theorem testDfs_closed (repo : Graph) :
    ∀ (fuel : Nat) (n : String) (st : Graph × List String),
    n ∈ universeList repo → slack repo st.2 < fuel →
    ∀ p ∈ (testDfs repo fuel n st).1,
    p ∈ st.1 ∨ ∀ d ∈ p.2, d ∈ (testDfs repo fuel n st).2 := by
  intro fuel
  induction fuel with
  | zero =>
    intro n st _ hs
    omega
  | succ fuel ih =>
    intro n st hU hs p hp
    rw [show testDfs repo (fuel + 1) n st =
        (if n ∈ st.2 then st
         else (depsOf repo n).foldl (fun s d => testDfs repo fuel d s)
           (dinsert st.1 n (depsOf repo n), st.2 ++ [n])) from rfl] at hp ⊢
    by_cases hn : n ∈ st.2
    · rw [if_pos hn] at hp ⊢
      exact Or.inl hp
    · rw [if_neg hn] at hp ⊢
      have hfuel1 : 1 ≤ fuel := by
        have : 1 ≤ slack repo st.2 := by
          unfold slack
          have : n ∈ (universeList repo).filter (fun x => decide (x ∉ st.2)) :=
            List.mem_filter.mpr ⟨hU, by simpa using hn⟩
          exact List.length_pos.mpr (List.ne_nil_of_mem this)
        omega
      have hs1 : slack repo (st.2 ++ [n]) < fuel := by
        have := slack_lt repo hU hn
        omega
      -- the fold invariant: entries are old or closed in the final seen,
      -- and every processed dependency is in the final seen
      have main : ∀ (ds : List String), (∀ d ∈ ds, d ∈ universeList repo) →
          ∀ (s : Graph × List String), slack repo s.2 < fuel →
          (∀ q ∈ (ds.foldl (fun s d => testDfs repo fuel d s) s).1,
            q ∈ s.1 ∨ ∀ d ∈ q.2, d ∈ (ds.foldl (fun s d => testDfs repo fuel d s) s).2) ∧
          (∀ d ∈ ds, d ∈ (ds.foldl (fun s d => testDfs repo fuel d s) s).2) := by
        intro ds
        induction ds with
        | nil => intro _ s _; exact ⟨fun q hq => Or.inl hq, by simp⟩
        | cons d rest ihds =>
          intro hdU s hsf
          simp only [List.foldl_cons]
          have hext1 := testDfs_ext repo fuel d s
          have hextR := foldl_rel (DfsExt repo) _ (dfsExt_refl repo)
            (dfsExt_trans repo) (fun s d => testDfs_ext repo fuel d s) rest
            (testDfs repo fuel d s)
          obtain ⟨⟨e1, he1⟩, -, -, -⟩ := hext1
          obtain ⟨⟨e2, he2⟩, -, -, -⟩ := hextR
          have hsub1 : ∀ y ∈ s.2, y ∈ (testDfs repo fuel d s).2 := by
            intro y hy; rw [he1]; exact List.mem_append_left _ hy
          have hsf2 : slack repo (testDfs repo fuel d s).2 < fuel :=
            lt_of_le_of_lt (slack_mono repo hsub1) hsf
          obtain ⟨ihq, ihd⟩ := ihds (fun d' hd' => hdU d' (List.mem_cons_of_mem _ hd'))
            (testDfs repo fuel d s) hsf2
          constructor
          · intro q hq
            rcases ihq q hq with h | h
            · -- q is an entry of testDfs fuel d s: old, or closed there
              rcases ih d s (hdU d (List.mem_cons_self d rest)) hsf q h with h2 | h2
              · exact Or.inl h2
              · refine Or.inr fun x hx => ?_
                rw [he2]
                exact List.mem_append_left _ (h2 x hx)
            · exact Or.inr h
          · intro d' hd'
            rcases List.mem_cons.mp hd' with rfl | hmem
            · have : d' ∈ (testDfs repo fuel d' s).2 := testDfs_visits repo fuel d' s hfuel1
              rw [he2]
              exact List.mem_append_left _ this
            · exact ihd d' hmem
      obtain ⟨hq, hd⟩ := main (depsOf repo n)
        (fun d hd => depsOf_subset_universe hd)
        (dinsert st.1 n (depsOf repo n), st.2 ++ [n]) hs1
      rcases hq p hp with h | h
      · rcases mem_dinsert h with h2 | h2
        · exact Or.inl h2
        · subst h2
          exact Or.inr hd
      · exact Or.inr h

/-- Bundled correctness of `build_graph_test_dfs` (shared by several
claims): the result is closed, has duplicate-free keys bound to exactly
`repo_graph.get(n, [])`, its universe equals its key set, and its key set is
the set of nodes reachable from the root. -/
theorem buildTest_props (repo : Graph) (root : String) :
    (∀ p ∈ build_graph_test_dfs repo root, ∀ d ∈ p.2,
      d ∈ keysOf (build_graph_test_dfs repo root)) ∧
    (keysOf (build_graph_test_dfs repo root)).Nodup ∧
    (∀ p ∈ build_graph_test_dfs repo root, p.2 = depsOf repo p.1) ∧
    (∀ x, x ∈ universeList (build_graph_test_dfs repo root) ↔
      x ∈ keysOf (build_graph_test_dfs repo root)) ∧
    (∀ x, x ∈ keysOf (build_graph_test_dfs repo root) ↔ ReachDep repo root x) := by
  have F := (universeList repo).length + 2
  set res := testDfs repo ((universeList repo).length + 2) root ([], []) with hres
  have hG : build_graph_test_dfs repo root = res.1 := rfl
  obtain ⟨⟨e0, he0⟩, hentries, hkeys, hnodup⟩ :=
    testDfs_ext repo ((universeList repo).length + 2) root ([], [])
  rw [← hres] at hentries hkeys hnodup he0
  have hkeysres : keysOf res.1 = res.2 := hkeys rfl
  have hnodupres : res.2.Nodup := hnodup List.nodup_nil
  have hdeps : ∀ p ∈ res.1, p.2 = depsOf repo p.1 := by
    intro p hp
    rcases hentries p hp with h | h
    · simp at h
    · exact h
  have hclosed : ∀ p ∈ res.1, ∀ d ∈ p.2, d ∈ res.2 := by
    by_cases hroot : root ∈ universeList repo
    · have hs : slack repo ([] : List String) <
          (universeList repo).length + 2 := by
        have : slack repo [] ≤ (universeList repo).length := by
          unfold slack
          exact List.length_filter_le _ _
        omega
      intro p hp
      rcases testDfs_closed repo ((universeList repo).length + 2) root ([], [])
        hroot hs p hp with h | h
      · simp at h
      · exact h
    · have hd0 : depsOf repo root = [] :=
        depsOf_eq_nil_of_not_key (not_key_of_not_mem_universe hroot)
      have hres2 : res = ([(root, [])], [root]) := by
        rw [hres]
        show testDfs repo ((universeList repo).length + 1 + 1) root ([], []) = _
        unfold testDfs
        simp [hd0, dinsert]
      rw [hres2]
      intro p hp d hd
      simp only [List.mem_singleton] at hp
      subst hp
      simp at hd
  refine ⟨?_, ?_, ?_, ?_, ?_⟩
  · rw [hG, hkeysres]
    exact hclosed
  · rw [hG, hkeysres]
    exact hnodupres
  · rw [hG]
    exact hdeps
  · intro x
    rw [hG]
    constructor
    · intro hx
      rcases (mem_universeList res.1 x).mp hx with h | h
      · exact h
      · obtain ⟨p, hp, hd⟩ := h
        rw [hkeysres]
        exact hclosed p hp x hd
    · exact keys_subset_universe
  · intro x
    rw [hG, hkeysres]
    constructor
    · intro hx
      rcases testDfs_reach repo ((universeList repo).length + 2) root ([], []) x
        (by rw [← hres]; exact hx) with h | h
      · simp at h
      · exact h
    · intro hx
      induction hx with
      | refl =>
        rw [← hres] at *
        exact testDfs_visits repo ((universeList repo).length + 2) root ([], [])
          (by omega)
      | @tail b c hab hbc ih =>
        have hb : b ∈ keysOf res.1 := by rw [hkeysres]; exact ih
        obtain ⟨p, hp, hpb⟩ := List.mem_map.mp hb
        have := hdeps p hp
        have hc : c ∈ p.2 := by
          rw [this, hpb]
          exact hbc
        exact hclosed p hp c hc

/-- Claim C10: the graph returned by the test-mode builder is closed: every
identifier in any dependency list is a key (a depended-on node absent from
the fixture gets the empty list, per `repo_graph.get(n, [])`), the node
universe of the result equals its key set, and that key set is exactly the
set of nodes reachable from the root. -/
theorem built_graph_closed (repo : Graph) (root : String) :
    (∀ p ∈ build_graph_test_dfs repo root, ∀ d ∈ p.2,
      d ∈ keysOf (build_graph_test_dfs repo root)) ∧
    (keysOf (build_graph_test_dfs repo root)).Nodup ∧
    (∀ p ∈ build_graph_test_dfs repo root, p.2 = depsOf repo p.1) ∧
    (∀ x, x ∈ universeList (build_graph_test_dfs repo root) ↔
      x ∈ keysOf (build_graph_test_dfs repo root)) ∧
    (∀ x, x ∈ keysOf (build_graph_test_dfs repo root) ↔ ReachDep repo root x) :=
  buildTest_props repo root

/-- Witness for C10 on a concrete fixture: `Z` appears only as a dependency
value (absent from the fixture) yet is a key of the result, and `X`,
reachable only through `B`, is a key and is reachable. -/
theorem built_graph_closed_witness :
    (("A", ["B", "Z"]) ∈ build_graph_test_dfs
        [("A", ["B", "Z"]), ("B", ["X"]), ("Q", ["A"]), ("X", [])] ("A") ∧
     ("Z") ∈ keysOf (build_graph_test_dfs
        [("A", ["B", "Z"]), ("B", ["X"]), ("Q", ["A"]), ("X", [])] ("A"))) ∧
    ReachDep [("A", ["B", "Z"]), ("B", ["X"]), ("Q", ["A"]), ("X", [])]
      ("A") ("X") := by
  have h := built_graph_closed
    [("A", ["B", "Z"]), ("B", ["X"]), ("Q", ["A"]), ("X", [])] ("A")
  refine ⟨⟨by decide, ?_⟩, ?_⟩
  · exact h.1 (("A"), ["B", "Z"]) (by decide) ("Z") (by decide)
  · exact (h.2.2.2.2 ("X")).mp (by decide)

/-! ### Claims C4 and C5: visited-set casing and failure policy -/

/-- A provider that fails for package `B`: the root `App` declares `B` and
`C`, and looking `B` up raises. -/
def provFail : String → String → Except Unit (List (String × Option String)) :=
  fun n _ =>
    if n = ("B") then Except.error ()
    else Except.ok (if n = ("App") then [(("B"), none), (("C"), none)] else [])

/-- Counterexample to C5: in real mode the builder has no handler around the
provider call, so the failure on `B` propagates and the whole build aborts
with an error — no graph is returned at all, in particular none covering the
still-unexplored sibling `C`. -/
theorem real_builder_aborts_on_failure :
    build_graph_real_dfs provFail 10 ("App") ("1.0") = Except.error () := by rfl

/-- Invariant chaining for `List.foldlM` over `Except` (the sequential
`for d, dv in deps: dfs(...)` loop with propagating exceptions). -/
theorem foldlM_except_inv {β St : Type} (f : St → β → Except Unit St)
    (P : St → Prop)
    (hstep : ∀ s b s', P s → f s b = Except.ok s' → P s') :
    ∀ (l : List β) (s s' : St), P s → l.foldlM f s = Except.ok s' → P s' := by
  intro l
  induction l with
  | nil =>
    intro s s' hs h
    simp only [List.foldlM_nil, pure, Except.pure] at h
    cases h
    exact hs
  | cons b rest ih =>
    intro s s' hs h
    rw [List.foldlM_cons] at h
    cases hf : f s b with
    | error e =>
      rw [hf] at h
      cases h
    | ok s1 =>
      rw [hf] at h
      exact ih s1 s' (hstep s b s1 hs hf) h

/-- The real-mode visited-set invariant: every recorded key has its
lowercased form in `seen`, and the lowercased keys are pairwise distinct. -/
def LowerInv (st : Graph × List String) : Prop :=
  (∀ k ∈ keysOf st.1, pyLower k ∈ st.2) ∧ ((keysOf st.1).map pyLower).Nodup

theorem realDfs_lowerInv
    (prov : String → String → Except Unit (List (String × Option String)))
    (rv : String) :
    ∀ (fuel : Nat) (name ver : String) (st res : Graph × List String),
    LowerInv st → realDfs prov rv fuel name ver st = Except.ok res →
    LowerInv res := by
  intro fuel
  induction fuel with
  | zero =>
    intro name ver st res hst h
    simp only [realDfs] at h
    cases h
    exact hst
  | succ fuel ih =>
    intro name ver st res hst h
    rw [show realDfs prov rv (fuel + 1) name ver st =
        (if pyLower name ∈ st.2 then Except.ok st
         else match prov name ver with
          | Except.error e => Except.error e
          | Except.ok deps =>
            (deps.foldlM (fun s p => realDfs prov rv fuel p.1 (pyOr p.2 rv) s)
              (dinsert st.1 name (deps.map Prod.fst), st.2 ++ [pyLower name]))) from rfl] at h
    by_cases hn : pyLower name ∈ st.2
    · rw [if_pos hn] at h
      cases h
      exact hst
    · rw [if_neg hn] at h
      cases hp : prov name ver with
      | error e => rw [hp] at h; cases h
      | ok deps =>
        rw [hp] at h
        have hkey : name ∉ keysOf st.1 := fun hk => hn (hst.1 name hk)
        have hinv1 : LowerInv (dinsert st.1 name (deps.map Prod.fst),
            st.2 ++ [pyLower name]) := by
          constructor
          · intro k hk
            unfold keysOf at hk
            rw [dinsert_of_not_mem _ hkey] at hk
            simp only [List.map_append, List.map_cons, List.map_nil,
              List.mem_append, List.mem_singleton] at hk
            rcases hk with hk | rfl
            · exact List.mem_append_left _ (hst.1 k hk)
            · exact List.mem_append_right _ (by simp)
          · unfold keysOf
            rw [dinsert_of_not_mem _ hkey]
            simp only [List.map_append, List.map_cons, List.map_nil]
            rw [List.nodup_append]
            refine ⟨hst.2, List.nodup_singleton _, ?_⟩
            intro x hx
            simp only [List.mem_singleton]
            intro hxx
            subst hxx
            obtain ⟨k, hk, hkx⟩ := List.mem_map.mp hx
            exact hn (hkx ▸ hst.1 k hk)
        exact foldlM_except_inv _ LowerInv
          (fun s p s' hs hf => ih p.1 (pyOr p.2 rv) s s' hs hf)
          deps _ res hinv1 h

/-- Amended C4: the real-mode builder deduplicates case-insensitively (its
visited set stores lowercased names, so the recorded keys have pairwise
distinct lowercased forms), while the test-mode builder deduplicates by
exact string match only (its keys are pairwise distinct as strings, but two
keys may differ only in case — see the counterexample). -/
theorem visited_set_casing
    (prov : String → String → Except Unit (List (String × Option String)))
    (fuel : Nat) (root rv : String) (G : Graph)
    (h : build_graph_real_dfs prov fuel root rv = Except.ok G) :
    ((keysOf G).map pyLower).Nodup ∧
    (∀ repo r, (keysOf (build_graph_test_dfs repo r)).Nodup) := by
  constructor
  · unfold build_graph_real_dfs at h
    cases hr : realDfs prov rv fuel root rv ([], []) with
    | error e => rw [hr] at h; cases h
    | ok st =>
      rw [hr] at h
      simp only [Except.map] at h
      cases h
      exact (realDfs_lowerInv prov rv fuel root rv ([], []) st
        ⟨by simp [keysOf], by simp [keysOf]⟩ hr).2
  · intro repo r
    obtain ⟨-, -, hkeys, hnodup⟩ :=
      testDfs_ext repo ((universeList repo).length + 2) r ([], [])
    have h1 : keysOf (build_graph_test_dfs repo r) =
        (testDfs repo ((universeList repo).length + 2) r ([], [])).2 :=
      hkeys rfl
    rw [h1]
    exact hnodup List.nodup_nil

/-- Counterexample to C4: in the test-mode builder the visited check is the
case-sensitive `if n in seen`, so a fixture whose reachable identifiers `A`
and `a` differ only in letter case gets BOTH recorded as separate nodes. -/
theorem visited_set_casing_counterexample :
    ("A") ∈ keysOf (build_graph_test_dfs [("A", ["a"]), ("a", [])] ("A")) ∧
    ("a") ∈ keysOf (build_graph_test_dfs [("A", ["a"]), ("a", [])] ("A")) ∧
    ¬ ("A") = ("a" : String) ∧ pyLower ("A") = pyLower ("a") := by
  decide

/-- A provider under which `A` transitively reports `a`, differing only in
case; used to witness the real-mode half of the amended C4. -/
def provCase : String → String → Except Unit (List (String × Option String)) :=
  fun n _ => Except.ok (if n = ("A") then [(("a"), none)] else [])

/-- Witness for the amended C4: under `provCase` the real-mode builder
records only `A` (the lowercased revisit of `a` is suppressed), and the
test-mode key list of the counterexample fixture is duplicate-free as
strings even though two keys share a lowercase form. -/
theorem visited_set_casing_witness :
    build_graph_real_dfs provCase 10 ("A") ("1.0") = Except.ok [("A", ["a"])] ∧
    ((keysOf [(("A" : String), (["a"] : List String))]).map pyLower).Nodup ∧
    (keysOf (build_graph_test_dfs [("A", ["a"]), ("a", [])] ("A"))).Nodup := by
  have h := visited_set_casing provCase 10 ("A") ("1.0") [("A", ["a"])] (by rfl)
  exact ⟨by rfl, h.1, h.2 [("A", ["a"]), ("a", [])] ("A")⟩

/-- Amended C5: the failure policy differs between the two builders.  In
test mode a lookup cannot fail — a reachable node absent from the fixture is
recorded with zero dependencies (`repo_graph.get(n, [])`) and the traversal
continues.  In real mode a provider failure is unhandled: it propagates out
of `dfs` immediately and aborts the whole build (strict policy), as the
counterexample `real_builder_aborts_on_failure` shows concretely. -/
theorem lookup_failure_policy :
    (∀ repo root n, ReachDep repo root n → n ∉ keysOf repo →
      alookup (build_graph_test_dfs repo root) n = some []) ∧
    (∀ (prov : String → String → Except Unit (List (String × Option String)))
        (rv : String) (fuel : Nat) (name ver : String) (st : Graph × List String)
        (e : Unit),
      pyLower name ∉ st.2 → prov name ver = Except.error e →
      realDfs prov rv (fuel + 1) name ver st = Except.error e) := by
  constructor
  · intro repo root n hreach hnk
    obtain ⟨hclosed, hnodup, hdeps, huniv, hkeys⟩ := buildTest_props repo root
    have hn : n ∈ keysOf (build_graph_test_dfs repo root) := (hkeys n).mpr hreach
    obtain ⟨p, hp, hpn⟩ := List.mem_map.mp hn
    obtain ⟨k, v⟩ := p
    have hkn : k = n := hpn
    subst hkn
    have hv : v = [] := by
      have := hdeps (k, v) hp
      simp only at this
      rw [this, depsOf_eq_nil_of_not_key hnk]
    subst hv
    exact mem_alookup hnodup hp
  · intro prov rv fuel name ver st e hn hp
    rw [show realDfs prov rv (fuel + 1) name ver st =
        (if pyLower name ∈ st.2 then Except.ok st
         else match prov name ver with
          | Except.error e => Except.error e
          | Except.ok deps =>
            (deps.foldlM (fun s p => realDfs prov rv fuel p.1 (pyOr p.2 rv) s)
              (dinsert st.1 name (deps.map Prod.fst),
               st.2 ++ [pyLower name]))) from rfl]
    rw [if_neg hn, hp]

/-- Witness for the amended C5: the fixture `{App: [Missing]}` records the
absent node `Missing` with zero dependencies, and the failing provider makes
`dfs` return the error immediately. -/
theorem lookup_failure_policy_witness :
    (ReachDep [("App", ["Missing"])] ("App") ("Missing") ∧
     ("Missing") ∉ keysOf [(("App" : String), (["Missing"] : List String))] ∧
     alookup (build_graph_test_dfs [("App", ["Missing"])] ("App")) ("Missing") =
       some []) ∧
    (pyLower ("B") ∉ ([] : List String) ∧
     provFail ("B") ("1.0") = Except.error () ∧
     realDfs provFail ("1.0") 5 ("B") ("1.0") ([], []) = Except.error ()) := by
  have hreach : ReachDep [("App", ["Missing"])] ("App") ("Missing") :=
    Relation.ReflTransGen.single (by decide)
  exact ⟨⟨hreach, by decide,
          lookup_failure_policy.1 [("App", ["Missing"])] ("App") ("Missing")
            hreach (by decide)⟩,
         by decide, rfl,
         lookup_failure_policy.2 provFail ("1.0") 4 ("B") ("1.0") ([], []) ()
           (by decide) rfl⟩

/-! ### Lemmas about Kahn's algorithm (`topo_load_order`) -/

theorem alookup_cons {α : Type} (k : String) (v : α) (rest : List (String × α))
    (key : String) :
    alookup ((k, v) :: rest) key = if k = key then some v else alookup rest key := rfl

theorem adecr_cons (k : String) (v : Int) (rest : List (String × Int)) (w : String) :
    adecr ((k, v) :: rest) w =
      (if k = w then (k, v - 1) else (k, v)) :: adecr rest w := rfl

theorem adecr_keys (m : List (String × Int)) (w : String) :
    (adecr m w).map Prod.fst = m.map Prod.fst := by
  induction m with
  | nil => rfl
  | cons p rest ih =>
    obtain ⟨k, v⟩ := p
    by_cases h : k = w
    · rw [adecr_cons, if_pos h]
      simp [ih]
    · rw [adecr_cons, if_neg h]
      simp [ih]

theorem alookup_adecr_self (m : List (String × Int)) (w : String) :
    alookup (adecr m w) w = (alookup m w).map (fun v => v - 1) := by
  induction m with
  | nil => rfl
  | cons p rest ih =>
    obtain ⟨k, v⟩ := p
    by_cases h : k = w
    · rw [adecr_cons, if_pos h, alookup_cons, alookup_cons, if_pos h, if_pos h]
      rfl
    · rw [adecr_cons, if_neg h, alookup_cons, alookup_cons, if_neg h, if_neg h, ih]

theorem alookup_adecr_other (m : List (String × Int)) (w n : String) (h : ¬ n = w) :
    alookup (adecr m w) n = alookup m n := by
  induction m with
  | nil => rfl
  | cons p rest ih =>
    obtain ⟨k, v⟩ := p
    by_cases hk : k = w
    · have hkn : ¬ k = n := fun he => h (hk ▸ he ▸ rfl)
      rw [adecr_cons, if_pos hk, alookup_cons, alookup_cons, if_neg hkn, if_neg hkn, ih]
    · by_cases hn : k = n
      · rw [adecr_cons, if_neg hk, alookup_cons, alookup_cons, if_pos hn, if_pos hn]
      · rw [adecr_cons, if_neg hk, alookup_cons, alookup_cons, if_neg hn, if_neg hn, ih]

theorem isum_cons (k : String) (v : Int) (rest : List (String × Int)) :
    isum ((k, v) :: rest) = v.toNat + isum rest := by
  simp [isum]

theorem isum_adecr_le (m : List (String × Int)) (w : String) :
    isum (adecr m w) ≤ isum m := by
  induction m with
  | nil => simp [adecr]
  | cons p rest ih =>
    obtain ⟨k, v⟩ := p
    by_cases h : k = w
    · rw [adecr_cons, if_pos h, isum_cons, isum_cons]
      have : (v - 1).toNat ≤ v.toNat := by omega
      omega
    · rw [adecr_cons, if_neg h, isum_cons, isum_cons]
      omega

theorem isum_adecr_lt (m : List (String × Int)) (w : String) (k : Int)
    (hl : alookup m w = some k) (hk : 1 ≤ k) :
    isum (adecr m w) < isum m := by
  induction m with
  | nil => simp [alookup] at hl
  | cons p rest ih =>
    obtain ⟨k2, v⟩ := p
    by_cases h : k2 = w
    · rw [alookup_cons, if_pos h] at hl
      have hv : v = k := by injection hl
      subst hv
      rw [adecr_cons, if_pos h, isum_cons, isum_cons]
      have h1 : (v - 1).toNat < v.toNat := by omega
      have h2 := isum_adecr_le rest w
      omega
    · rw [alookup_cons, if_neg h] at hl
      have := ih hl
      rw [adecr_cons, if_neg h, isum_cons, isum_cons]
      omega

theorem stepList_keys (ws q : List String) (m : List (String × Int)) :
    (stepList ws q m).2.map Prod.fst = m.map Prod.fst := by
  induction ws generalizing q m with
  | nil => rfl
  | cons w ws ih =>
    simp only [stepList]
    rw [ih, adecr_keys]

theorem stepList_vals (ws q : List String) (m : List (String × Int)) (n : String) :
    alookup (stepList ws q m).2 n =
      (alookup m n).map (fun v => v - (ws.count n : Int)) := by
  induction ws generalizing q m with
  | nil =>
    simp only [stepList, List.count_nil, Int.natCast_zero]
    cases alookup m n <;> simp
  | cons w ws ih =>
    simp only [stepList]
    rw [ih]
    by_cases h : n = w
    · subst h
      rw [alookup_adecr_self, List.count_cons_self]
      cases alookup m n with
      | none => rfl
      | some v =>
        show some (v - 1 - (ws.count n : Int)) = some (v - ((ws.count n + 1 : Nat) : Int))
        congr 1
        push_cast
        ring
    · rw [alookup_adecr_other m w n h, List.count_cons_of_ne h]

theorem stepList_mem (ws q : List String) (m : List (String × Int)) (x : String) :
    x ∈ (stepList ws q m).1 ↔
      x ∈ q ∨ (1 ≤ (alookup m x).getD 0 ∧ (alookup m x).getD 0 ≤ (ws.count x : Int)) := by
  induction ws generalizing q m with
  | nil =>
    simp only [stepList, List.count_nil, Int.natCast_zero]
    constructor
    · exact Or.inl
    · rintro (h | ⟨h1, h2⟩)
      · exact h
      · omega
  | cons w ws ih =>
    simp only [stepList]
    rw [ih]
    by_cases h : x = w
    · subst h
      cases hm : alookup m x with
      | none =>
        rw [alookup_adecr_self, hm]
        simp only [Option.map_none', Option.getD_none, List.count_cons_self]
        rw [if_neg (by decide : ¬ ((0 : Int) - 1 = 0))]
        constructor
        · rintro (hq | ⟨h1, -⟩)
          · exact Or.inl hq
          · omega
        · rintro (hq | ⟨h1, -⟩)
          · exact Or.inl hq
          · omega
      | some v =>
        rw [alookup_adecr_self, hm]
        simp only [Option.map_some', Option.getD_some, List.count_cons_self]
        by_cases hv : v - 1 = 0
        · rw [if_pos hv]
          constructor
          · intro _
            refine Or.inr ⟨by omega, ?_⟩
            push_cast
            omega
          · intro _
            exact Or.inl (by simp)
        · rw [if_neg hv]
          constructor
          · rintro (hq | ⟨h1, h2⟩)
            · exact Or.inl hq
            · refine Or.inr ⟨by omega, ?_⟩
              push_cast at h2 ⊢
              omega
          · rintro (hq | ⟨h1, h2⟩)
            · exact Or.inl hq
            · refine Or.inr ⟨by omega, ?_⟩
              push_cast at h2 ⊢
              omega
    · rw [alookup_adecr_other m w x h, List.count_cons_of_ne h]
      by_cases hd : (alookup m w).getD 0 - 1 = 0
      · rw [if_pos hd]
        constructor
        · rintro (hq | hrest)
          · rcases List.mem_append.mp hq with h1 | h1
            · exact Or.inl h1
            · simp only [List.mem_singleton] at h1
              exact absurd h1 h
          · exact Or.inr hrest
        · rintro (hq | hrest)
          · exact Or.inl (List.mem_append_left _ hq)
          · exact Or.inr hrest
      · rw [if_neg hd]

theorem stepList_nodup (ws q : List String) (m : List (String × Int))
    (hq : q.Nodup) (hcond : ∀ x ∈ q, (alookup m x).getD 0 ≤ 0) :
    (stepList ws q m).1.Nodup := by
  induction ws generalizing q m with
  | nil => exact hq
  | cons w ws ih =>
    simp only [stepList]
    by_cases hd : (alookup m w).getD 0 - 1 = 0
    · rw [if_pos hd]
      have hw : w ∉ q := by
        intro hwq
        have := hcond w hwq
        omega
      refine ih _ _ (by simp [List.nodup_append, hq, hw]) ?_
      intro x hx
      rcases List.mem_append.mp hx with h1 | h1
      · by_cases hxw : x = w
        · exact absurd (hxw ▸ h1) hw
        · rw [alookup_adecr_other m w x hxw]
          exact hcond x h1
      · simp only [List.mem_singleton] at h1
        subst h1
        rw [alookup_adecr_self]
        cases hm : alookup m x <;> simp
        rw [hm] at hd
        simp at hd
        omega
    · rw [if_neg hd]
      refine ih _ _ hq ?_
      intro x hx
      by_cases hxw : x = w
      · subst hxw
        rw [alookup_adecr_self]
        have := hcond x hx
        cases hm : alookup m x <;> simp
        rw [hm] at this
        simp at this
        omega
      · rw [alookup_adecr_other m w x hxw]
        exact hcond x hx

theorem stepList_measure (ws q : List String) (m : List (String × Int)) :
    (stepList ws q m).1.length + isum (stepList ws q m).2 ≤ q.length + isum m := by
  induction ws generalizing q m with
  | nil => exact le_refl _
  | cons w ws ih =>
    simp only [stepList]
    by_cases hd : (alookup m w).getD 0 - 1 = 0
    · rw [if_pos hd]
      have hsome : alookup m w = some 1 := by
        cases hm : alookup m w with
        | none => rw [hm] at hd; simp at hd
        | some v =>
          rw [hm] at hd
          simp only [Option.getD_some] at hd
          have : v = 1 := by omega
          rw [this]
      have hlt := isum_adecr_lt m w 1 hsome (by omega)
      have := ih (q ++ [w]) (adecr m w)
      simp only [List.length_append, List.length_singleton] at this
      omega
    · rw [if_neg hd]
      have := ih q (adecr m w)
      have hle := isum_adecr_le m w
      omega

theorem count_revList (g : Graph) (hkeys : (keysOf g).Nodup) (v n : String) :
    (revList g v).count n = (depsOf g n).count v := by
  induction g with
  | nil => simp [revList, depsOf, alookup]
  | cons p rest ih =>
    obtain ⟨k, ds⟩ := p
    simp only [keysOf, List.map_cons, List.nodup_cons] at hkeys
    have ihr := ih hkeys.2
    simp only [revList, List.flatMap_cons, List.count_append] at *
    by_cases h : k = n
    · subst h
      have hrest : depsOf rest k = [] := by
        apply depsOf_eq_nil_of_not_key
        exact hkeys.1
      rw [ihr, hrest]
      simp only [List.count_nil, Nat.add_zero]
      rw [show depsOf ((k, ds) :: rest) k = ds from by
        simp [depsOf, alookup_cons]]
      simp [List.count_replicate]
    · rw [ihr]
      rw [show depsOf ((k, ds) :: rest) n = depsOf rest n from by
        simp [depsOf, alookup_cons, h]]
      simp [List.count_replicate, h]

theorem countP_append_out {o : List String} {v : String} (hv : v ∉ o) :
    ∀ l : List String,
    (l.countP (fun d => decide (d ∉ o ++ [v])) : Int) =
      (l.countP (fun d => decide (d ∉ o)) : Int) - (l.count v : Int) := by
  intro l
  induction l with
  | nil => simp
  | cons d l ih =>
    by_cases h : d = v
    · subst h
      simp only [List.countP_cons, List.count_cons, beq_self_eq_true, if_true]
      have h1 : (decide (d ∉ o ++ [d])) = false := by simp
      have h2 : (decide (d ∉ o)) = true := by simpa using hv
      rw [h1, h2]
      push_cast at ih ⊢
      simp only [Bool.false_eq_true, if_false, if_true]
      omega
    · simp only [List.countP_cons, List.count_cons]
      have h2 : (d == v) = false := by simpa using h
      rw [h2]
      by_cases hd : d ∈ o
      · have ha : (decide (d ∉ o ++ [v])) = false := by simp [hd]
        have hb : (decide (d ∉ o)) = false := by simp [hd]
        rw [ha, hb]
        push_cast at ih ⊢
        omega
      · have ha : (decide (d ∉ o ++ [v])) = true := by simp [hd, h]
        have hb : (decide (d ∉ o)) = true := by simp [hd]
        rw [ha, hb]
        push_cast at ih ⊢
        simp only [if_true]
        omega

theorem alookup_map_self {α : Type} (l : List String) (f : String → α) (x : String) :
    alookup (l.map (fun n => (n, f n))) x = if x ∈ l then some (f x) else none := by
  induction l with
  | nil => simp [alookup]
  | cons a rest ih =>
    by_cases h : a = x
    · subst h
      simp [alookup_cons, ih]
    · simp only [List.map_cons, alookup_cons, if_neg h, ih]
      by_cases hx : x ∈ rest
      · simp [hx, List.mem_cons]
      · simp [hx, List.mem_cons, Ne.symm h]

/-- `d` occurs strictly before `n` in the list `o`. -/
def Before (o : List String) (d n : String) : Prop :=
  ∃ l₁ l₂ l₃, o = l₁ ++ d :: l₂ ++ n :: l₃

theorem Before.mem_left {o : List String} {d n : String} (h : Before o d n) :
    d ∈ o := by
  obtain ⟨l₁, l₂, l₃, rfl⟩ := h
  simp

theorem Before.append {o : List String} {d n : String} (h : Before o d n)
    (v : String) : Before (o ++ [v]) d n := by
  obtain ⟨l₁, l₂, l₃, rfl⟩ := h
  exact ⟨l₁, l₂, l₃ ++ [v], by simp⟩

theorem Before.of_mem {o : List String} {d v : String} (h : d ∈ o) :
    Before (o ++ [v]) d v := by
  obtain ⟨s, t, rfl⟩ := List.append_of_mem h
  exact ⟨s, t, [], by simp⟩

theorem before_indices {o : List String} {d n : String} (h : Before o d n) :
    ∃ i j : Nat, i < j ∧ o[i]? = some d ∧ o[j]? = some n := by
  obtain ⟨l₁, l₂, l₃, rfl⟩ := h
  refine ⟨l₁.length, l₁.length + l₂.length + 1, by omega, ?_, ?_⟩
  · rw [List.getElem?_append_left (by simp),
      List.getElem?_append_right (le_refl l₁.length)]
    simp
  · rw [List.getElem?_append_right (by simp; omega)]
    have h2 : l₁.length + l₂.length + 1 - (l₁ ++ d :: l₂).length = 0 := by
      simp
      omega
    rw [h2]
    simp

/-- The loop invariant of Kahn's algorithm relating the queue `q`, the
indegree dict `m` and the emitted order `o`:
the dict has exactly the enumerated keys; each node's residual indegree
counts its dependencies not yet emitted; queued nodes have residual zero
and all their dependencies emitted; emitted nodes have all their
dependencies emitted strictly earlier; order and queue are duplicate-free
and disjoint; both live inside the enumeration; and any node with residual
zero has been emitted or queued. -/
structure KInv (g : Graph) (enum : List String) (q : List String)
    (m : List (String × Int)) (o : List String) : Prop where
  keysm : m.map Prod.fst = enum
  vals : ∀ n, (alookup m n).getD 0 =
    ((depsOf g n).countP (fun d => decide (d ∉ o)) : Int)
  qzero : ∀ n ∈ q, (alookup m n).getD 0 = 0
  obefore : ∀ n ∈ o, ∀ d ∈ depsOf g n, Before o d n
  onodup : o.Nodup
  qnodup : q.Nodup
  disj : ∀ n ∈ o, n ∉ q
  omem : ∀ n ∈ o, n ∈ enum
  qmem : ∀ n ∈ q, n ∈ enum
  zeroin : ∀ n ∈ enum, (alookup m n).getD 0 = 0 → n ∈ o ∨ n ∈ q

theorem kinv_qdeps {g : Graph} {enum q m o} (hinv : KInv g enum q m o)
    (n : String) (hn : n ∈ q) : ∀ d ∈ depsOf g n, d ∈ o := by
  have h0 := hinv.qzero n hn
  rw [hinv.vals n] at h0
  have : (depsOf g n).countP (fun d => decide (d ∉ o)) = 0 := by
    exact_mod_cast h0
  intro d hd
  have := List.countP_eq_zero.mp this d hd
  simpa using this

theorem kinv_ozero {g : Graph} {enum q m o} (hinv : KInv g enum q m o)
    (n : String) (hn : n ∈ o) : (alookup m n).getD 0 = 0 := by
  rw [hinv.vals n]
  have : (depsOf g n).countP (fun d => decide (d ∉ o)) = 0 := by
    rw [List.countP_eq_zero]
    intro d hd
    have := (hinv.obefore n hn d hd).mem_left
    simpa using this
  exact_mod_cast this

theorem kinv_val_nonneg {g : Graph} {enum q m o} (hinv : KInv g enum q m o)
    (n : String) : 0 ≤ (alookup m n).getD 0 := by
  rw [hinv.vals n]
  exact Int.natCast_nonneg _

/-- Preservation of the Kahn loop invariant by one iteration of `while q:`:
popping `v`, appending it to the order and running the decrement loop over
`rev[v]` re-establishes the invariant. -/
theorem kinv_step (g : Graph) (enum : List String)
    (hkeys : (keysOf g).Nodup) (henum : enum.Perm (universeList g))
    (v : String) (rest : List String) (m : List (String × Int)) (o : List String)
    (hinv : KInv g enum (v :: rest) m o) :
    KInv g enum (stepList (revList g v) rest m).1 (stepList (revList g v) rest m).2
      (o ++ [v]) := by
  have hvq : v ∈ v :: rest := List.mem_cons_self v rest
  have hv0 : (alookup m v).getD 0 = 0 := hinv.qzero v hvq
  have hvdeps : ∀ d ∈ depsOf g v, d ∈ o := kinv_qdeps hinv v hvq
  have hvo : v ∉ o := fun h => hinv.disj v h hvq
  have hcount : ∀ n, (revList g v).count n = (depsOf g n).count v :=
    count_revList g hkeys v
  have hmemiff : ∀ x, x ∈ enum ↔ x ∈ universeList g := fun x => henum.mem_iff
  have hvals' : ∀ n, (alookup (stepList (revList g v) rest m).2 n).getD 0 =
      ((depsOf g n).countP (fun d => decide (d ∉ o ++ [v])) : Int) := by
    intro n
    rw [stepList_vals]
    cases hm : alookup m n with
    | none =>
      have hne : n ∉ enum := by
        intro hne
        rw [← hinv.keysm] at hne
        have := (alookup_isSome_iff m n).mpr hne
        rw [hm] at this
        simp at this
      have hnil : depsOf g n = [] := depsOf_eq_nil_of_not_key
        (fun hk => hne ((hmemiff n).mpr (keys_subset_universe hk)))
      simp [hnil]
    | some k =>
      have hk := hinv.vals n
      rw [hm] at hk
      simp only [Option.getD_some] at hk
      simp only [Option.map_some', Option.getD_some]
      rw [hcount n, countP_append_out hvo (depsOf g n), hk]
  have hqzero' : ∀ n ∈ (stepList (revList g v) rest m).1,
      (alookup (stepList (revList g v) rest m).2 n).getD 0 = 0 := by
    intro n hn
    rcases (stepList_mem _ _ _ n).mp hn with hrest | ⟨h1, h2⟩
    · have h0 := hinv.qzero n (List.mem_cons_of_mem _ hrest)
      rw [hinv.vals n] at h0
      rw [hvals' n]
      have hz : (depsOf g n).countP (fun d => decide (d ∉ o)) = 0 := by
        exact_mod_cast h0
      have hz2 : (depsOf g n).countP (fun d => decide (d ∉ o ++ [v])) = 0 := by
        rw [List.countP_eq_zero] at hz ⊢
        intro d hd
        have hdo : d ∈ o := by simpa using hz d hd
        simp [hdo]
      exact_mod_cast hz2
    · have hnn : 0 ≤ (alookup (stepList (revList g v) rest m).2 n).getD 0 := by
        rw [hvals' n]
        exact Int.natCast_nonneg _
      cases hm : alookup m n with
      | none =>
        rw [hm] at h1
        simp only [Option.getD_none] at h1
        omega
      | some k =>
        have hknew : (alookup (stepList (revList g v) rest m).2 n) =
            some (k - ((revList g v).count n : Int)) := by
          rw [stepList_vals, hm]
          rfl
        rw [hknew] at hnn ⊢
        simp only [Option.getD_some] at hnn ⊢
        rw [hm] at h2
        simp only [Option.getD_some] at h2
        omega
  have hobefore' : ∀ n ∈ o ++ [v], ∀ d ∈ depsOf g n, Before (o ++ [v]) d n := by
    intro n hn d hd
    rcases List.mem_append.mp hn with h | h
    · exact (hinv.obefore n h d hd).append v
    · simp only [List.mem_singleton] at h
      subst h
      exact Before.of_mem (hvdeps d hd)
  have hrestnodup : rest.Nodup := (List.nodup_cons.mp hinv.qnodup).2
  have hvrest : v ∉ rest := (List.nodup_cons.mp hinv.qnodup).1
  have hqnodup' : (stepList (revList g v) rest m).1.Nodup :=
    stepList_nodup _ _ _ hrestnodup
      (fun x hx => le_of_eq (hinv.qzero x (List.mem_cons_of_mem _ hx)))
  have honodup' : (o ++ [v]).Nodup := by
    rw [List.nodup_append]
    refine ⟨hinv.onodup, List.nodup_singleton v, ?_⟩
    intro a ha hav
    simp only [List.mem_singleton] at hav
    subst hav
    exact hvo ha
  have hdisj' : ∀ n ∈ o ++ [v], n ∉ (stepList (revList g v) rest m).1 := by
    intro n hn hq'
    rcases (stepList_mem _ _ _ n).mp hq' with hrest | ⟨h1, h2⟩
    · rcases List.mem_append.mp hn with h | h
      · exact hinv.disj n h (List.mem_cons_of_mem _ hrest)
      · simp only [List.mem_singleton] at h
        subst h
        exact hvrest hrest
    · rcases List.mem_append.mp hn with h | h
      · have := kinv_ozero hinv n h
        omega
      · simp only [List.mem_singleton] at h
        subst h
        omega
  have homem' : ∀ n ∈ o ++ [v], n ∈ enum := by
    intro n hn
    rcases List.mem_append.mp hn with h | h
    · exact hinv.omem n h
    · simp only [List.mem_singleton] at h
      subst h
      exact hinv.qmem n hvq
  have hqmem' : ∀ n ∈ (stepList (revList g v) rest m).1, n ∈ enum := by
    intro n hn
    rcases (stepList_mem _ _ _ n).mp hn with hrest | ⟨h1, h2⟩
    · exact hinv.qmem n (List.mem_cons_of_mem _ hrest)
    · cases hm : alookup m n with
      | none =>
        rw [hm] at h1
        simp only [Option.getD_none] at h1
        omega
      | some k =>
        rw [← hinv.keysm]
        exact (alookup_isSome_iff m n).mp (by rw [hm]; rfl)
  have hzeroin' : ∀ n ∈ enum,
      (alookup (stepList (revList g v) rest m).2 n).getD 0 = 0 →
      n ∈ o ++ [v] ∨ n ∈ (stepList (revList g v) rest m).1 := by
    intro n hne hz
    by_cases h0 : (alookup m n).getD 0 = 0
    · rcases hinv.zeroin n hne h0 with h | h
      · exact Or.inl (List.mem_append_left _ h)
      · rcases List.mem_cons.mp h with rfl | hrest
        · exact Or.inl (List.mem_append_right _ (by simp))
        · exact Or.inr ((stepList_mem _ _ _ n).mpr (Or.inl hrest))
    · have hpos : 1 ≤ (alookup m n).getD 0 := by
        have := kinv_val_nonneg hinv n
        omega
      cases hm : alookup m n with
      | none =>
        rw [hm] at hpos
        simp only [Option.getD_none] at hpos
        omega
      | some k =>
        have hknew : (alookup (stepList (revList g v) rest m).2 n) =
            some (k - ((revList g v).count n : Int)) := by
          rw [stepList_vals, hm]
          rfl
        rw [hknew] at hz
        simp only [Option.getD_some] at hz
        rw [hm] at hpos
        simp only [Option.getD_some] at hpos
        refine Or.inr ((stepList_mem _ _ _ n).mpr (Or.inr ⟨?_, ?_⟩))
        · rw [hm]
          simpa using hpos
        · rw [hm]
          simp only [Option.getD_some]
          omega
  exact ⟨by rw [stepList_keys, hinv.keysm], hvals', hqzero', hobefore', honodup',
    hqnodup', hdisj', homem', hqmem', hzeroin'⟩

/-- The Kahn `while` loop preserves the invariant and, given fuel exceeding
the measure `|q| + Σ residual indegrees`, drains the queue completely. -/
theorem kahnRun_inv (g : Graph) (enum : List String)
    (hkeys : (keysOf g).Nodup) (henum : enum.Perm (universeList g)) :
    ∀ (fuel : Nat) (q : List String) (m : List (String × Int)) (o : List String),
    KInv g enum q m o → q.length + isum m < fuel →
    KInv g enum [] (kahnRun (revList g) fuel q m o).2
      (kahnRun (revList g) fuel q m o).1 := by
  intro fuel
  induction fuel with
  | zero =>
    intro q m o _ h
    omega
  | succ fuel ih =>
    intro q m o hinv hmeas
    cases q with
    | nil => exact hinv
    | cons v rest =>
      have hstep := kinv_step g enum hkeys henum v rest m o hinv
      have hmeas2 := stepList_measure (revList g v) rest m
      show KInv g enum []
        (kahnRun (revList g) fuel (stepList (revList g v) rest m).1
          (stepList (revList g v) rest m).2 (o ++ [v])).2
        (kahnRun (revList g) fuel (stepList (revList g v) rest m).1
          (stepList (revList g v) rest m).2 (o ++ [v])).1
      apply ih _ _ _ hstep
      simp only [List.length_cons] at hmeas
      omega

/-- The initial state of `topo_load_order` satisfies the invariant. -/
theorem kinv_init (g : Graph) (enum : List String)
    (_hkeys : (keysOf g).Nodup) (henum : enum.Perm (universeList g)) :
    KInv g enum (kahnSeed g enum) (kahnInit g enum) [] := by
  have henun : enum.Nodup := henum.nodup_iff.mpr (nodup_universeList g)
  have hlook : ∀ n, alookup (kahnInit g enum) n =
      if n ∈ enum then some ((depsOf g n).length : Int) else none :=
    fun n => alookup_map_self enum _ n
  have hvals : ∀ n, (alookup (kahnInit g enum) n).getD 0 =
      ((depsOf g n).countP (fun d => decide (d ∉ ([] : List String))) : Int) := by
    intro n
    rw [hlook n]
    have hcnt : (depsOf g n).countP (fun d => decide (d ∉ ([] : List String))) =
        (depsOf g n).length := by
      rw [show (fun d => decide (d ∉ ([] : List String))) =
          fun _ : String => true from by funext d; simp]
      exact congrFun List.countP_true (depsOf g n)
    rw [hcnt]
    by_cases hn : n ∈ enum
    · simp [hn]
    · rw [if_neg hn]
      have hnil : depsOf g n = [] := depsOf_eq_nil_of_not_key
        (fun hk => hn (henum.mem_iff.mpr (keys_subset_universe hk)))
      simp [hnil]
  have hkeysm : (kahnInit g enum).map Prod.fst = enum := by
    simp only [kahnInit, List.map_map]
    have hid : (Prod.fst ∘ fun n : String => (n, ((depsOf g n).length : Int))) =
        id := by
      funext n
      rfl
    rw [hid, List.map_id]
  refine ⟨hkeysm, hvals, ?_, by simp, List.nodup_nil, henun.filter _,
    by simp, by simp, ?_, ?_⟩
  · intro n hn
    simpa using List.of_mem_filter hn
  · intro n hn
    exact (List.mem_filter.mp hn).1
  · intro n hne hz
    exact Or.inr (List.mem_filter.mpr ⟨hne, by simpa using hz⟩)

/-- The final state of `topo_load_order`: an indegree dict satisfying the
drained invariant against the emitted order, from which the cycle list is
computed. -/
theorem topo_spec (g : Graph) (enum : List String)
    (hkeys : (keysOf g).Nodup) (henum : enum.Perm (universeList g)) :
    ∃ m : List (String × Int),
      KInv g enum [] m (topo_load_order enum g).1 ∧
      (topo_load_order enum g).2 =
        enum.filter (fun n => decide (0 < (alookup m n).getD 0)) := by
  refine ⟨_, kahnRun_inv g enum hkeys henum _ _ _ _
    (kinv_init g enum hkeys henum) (Nat.lt_succ_self _), rfl⟩

theorem reachUpTo_succ (g : Graph) :
    ∀ (k : Nat) (n x : String), x ∈ reachUpTo g k n → x ∈ reachUpTo g (k + 1) n := by
  intro k
  induction k with
  | zero =>
    intro n x hx
    simp [reachUpTo] at hx
  | succ k ih =>
    intro n x hx
    simp only [reachUpTo] at hx ⊢
    rcases List.mem_append.mp hx with h | h
    · exact List.mem_append_left _ h
    · obtain ⟨d, hd, hx2⟩ := List.mem_flatMap.mp h
      exact List.mem_append_right _ (List.mem_flatMap.mpr ⟨d, hd, ih d x hx2⟩)

theorem reachUpTo_mono (g : Graph) {k k' : Nat} (h : k ≤ k') :
    ∀ (n x : String), x ∈ reachUpTo g k n → x ∈ reachUpTo g k' n := by
  induction h with
  | refl => exact fun n x hx => hx
  | step h ih => exact fun n x hx => reachUpTo_succ g _ n x (ih n x hx)

theorem seq_chain (g : Graph) (seq : Nat → String)
    (hedge : ∀ i, seq (i + 1) ∈ depsOf g (seq i)) :
    ∀ (k i : Nat), seq (i + k + 1) ∈ reachUpTo g (k + 1) (seq i) := by
  intro k
  induction k with
  | zero =>
    intro i
    show seq (i + 1) ∈ reachUpTo g 1 (seq i)
    simp only [reachUpTo]
    exact List.mem_append_left _ (hedge i)
  | succ k ih =>
    intro i
    have h1 : seq (i + k + 2) ∈ reachUpTo g (k + 1) (seq (i + 1)) := by
      have := ih (i + 1)
      rwa [show i + 1 + k + 1 = i + k + 2 from by omega] at this
    show seq (i + (k + 1) + 1) ∈ reachUpTo g (k + 1 + 1) (seq i)
    rw [show i + (k + 1) + 1 = i + k + 2 from by omega]
    simp only [reachUpTo]
    exact List.mem_append_right _ (List.mem_flatMap.mpr ⟨seq (i + 1), hedge i, h1⟩)

/-- Pigeonhole: a finite nonempty set of nodes each of which has a
dependency inside the set contains a node that reaches itself within
`R.length` steps. -/
theorem exists_self_reach (g : Graph) (R : List String) (hne : R ≠ [])
    (hstep : ∀ y ∈ R, ∃ z ∈ R, z ∈ depsOf g y) :
    ∃ x ∈ R, ∃ k, 1 ≤ k ∧ k ≤ R.length ∧ x ∈ reachUpTo g k x := by
  have hf : ∀ x : {a // a ∈ R}, ∃ z : {a // a ∈ R}, z.1 ∈ depsOf g x.1 := by
    rintro ⟨x, hx⟩
    obtain ⟨z, hz, hzd⟩ := hstep x hx
    exact ⟨⟨z, hz⟩, hzd⟩
  choose f hf2 using hf
  obtain ⟨x0, hx0⟩ := List.exists_mem_of_ne_nil R hne
  have hedge : ∀ i, ((f^[i + 1] ⟨x0, hx0⟩ : {a // a ∈ R})).1 ∈
      depsOf g ((f^[i] ⟨x0, hx0⟩ : {a // a ∈ R})).1 := by
    intro i
    rw [Function.iterate_succ_apply' f i _]
    exact hf2 _
  have hcard : R.toFinset.card < (Finset.range (R.length + 1)).card := by
    rw [Finset.card_range]
    exact Nat.lt_succ_of_le (List.toFinset_card_le R)
  obtain ⟨i, hi, j, hj, hij, heq⟩ :=
    Finset.exists_ne_map_eq_of_card_lt_of_maps_to hcard
      (fun i _ => List.mem_toFinset.mpr ((f^[i] ⟨x0, hx0⟩ : {a // a ∈ R})).2)
  have key : ∀ a b : Nat, a < b → b ≤ R.length →
      ((f^[a] ⟨x0, hx0⟩ : {a // a ∈ R})).1 = ((f^[b] ⟨x0, hx0⟩ : {a // a ∈ R})).1 →
      ∃ x ∈ R, ∃ k, 1 ≤ k ∧ k ≤ R.length ∧ x ∈ reachUpTo g k x := by
    intro a b hab hbR hval
    refine ⟨((f^[a] ⟨x0, hx0⟩ : {a // a ∈ R})).1, ((f^[a] ⟨x0, hx0⟩ : {a // a ∈ R})).2,
      b - a, by omega, by omega, ?_⟩
    have hch := seq_chain g (fun i => ((f^[i] ⟨x0, hx0⟩ : {a // a ∈ R})).1)
      hedge (b - a - 1) a
    simp only at hch
    rw [show a + (b - a - 1) + 1 = b from by omega,
      show b - a - 1 + 1 = b - a from by omega] at hch
    rw [hval] at hch ⊢
    exact hch
  rcases lt_or_gt_of_ne hij with h | h
  · exact key i j h (by simpa [Nat.lt_succ_iff] using hj) heq
  · exact key j i h (by simpa [Nat.lt_succ_iff] using hi) heq.symm

/-- Completeness of Kahn's algorithm on acyclic graphs: every node of the
enumeration ends up in the output order. -/
theorem topo_complete (g : Graph) (enum : List String)
    (hkeys : (keysOf g).Nodup) (henum : enum.Perm (universeList g))
    (hacyc : Acyclic g) : ∀ x ∈ enum, x ∈ (topo_load_order enum g).1 := by
  obtain ⟨m, hinv, hcyc⟩ := topo_spec g enum hkeys henum
  by_contra hcon
  push_neg at hcon
  obtain ⟨x0, hx0e, hx0o⟩ := hcon
  set o := (topo_load_order enum g).1 with ho
  set R := enum.filter (fun y => decide (y ∉ o)) with hR
  have hne : R ≠ [] :=
    List.ne_nil_of_mem (List.mem_filter.mpr ⟨hx0e, by simpa using hx0o⟩)
  have hstep : ∀ y ∈ R, ∃ z ∈ R, z ∈ depsOf g y := by
    intro y hy
    obtain ⟨hye, hyno⟩ := List.mem_filter.mp hy
    have hyno2 : y ∉ o := by simpa using hyno
    have hyval : (alookup m y).getD 0 ≠ 0 := by
      intro h0
      rcases hinv.zeroin y hye h0 with h | h
      · exact hyno2 h
      · simp at h
    have hpos : 0 < (depsOf g y).countP (fun d => decide (d ∉ o)) := by
      have h1 := hinv.vals y
      rw [h1] at hyval
      omega
    obtain ⟨z, hz, hzo⟩ := List.countP_pos_iff.mp hpos
    have hzo2 : z ∉ o := by simpa using hzo
    have hzu : z ∈ universeList g := depsOf_subset_universe hz
    exact ⟨z, List.mem_filter.mpr ⟨henum.mem_iff.mpr hzu, by simpa using hzo2⟩, hz⟩
  obtain ⟨x, hxR, k, hk1, hk2, hreach⟩ := exists_self_reach g R hne hstep
  have hxu : x ∈ universeList g :=
    henum.mem_iff.mp (List.mem_filter.mp hxR).1
  have hkle : k ≤ (universeList g).length := by
    have h1 : R.length ≤ enum.length := List.length_filter_le _ _
    have h2 : enum.length = (universeList g).length := henum.length_eq
    omega
  exact hacyc x hxu (reachUpTo_mono g hkle x x hreach)

/-- Claim C1: on an acyclic graph, for every recorded edge (a key `n` whose
dependency list contains `d`), the dependency `d` appears in the returned
load order at a strictly earlier index than the dependent `n` — dependents
are reverse-adjacency-decremented only after their dependencies are output,
and acyclicity guarantees every node is output. -/
theorem topo_deps_first (g : Graph) (enum : List String) (n d : String)
    (ds : List String)
    (hkeys : (keysOf g).Nodup) (henum : enum.Perm (universeList g))
    (hacyc : Acyclic g) (hmem : (n, ds) ∈ g) (hd : d ∈ ds) :
    ∃ i j : Nat, i < j ∧ (topo_load_order enum g).1[i]? = some d ∧
      (topo_load_order enum g).1[j]? = some n := by
  obtain ⟨m, hinv, -⟩ := topo_spec g enum hkeys henum
  have hdeps : depsOf g n = ds := by
    unfold depsOf
    rw [mem_alookup hkeys hmem]
    rfl
  have hnk : n ∈ keysOf g := List.mem_map.mpr ⟨(n, ds), hmem, rfl⟩
  have hne : n ∈ enum := henum.mem_iff.mpr (keys_subset_universe hnk)
  have hno : n ∈ (topo_load_order enum g).1 :=
    topo_complete g enum hkeys henum hacyc n hne
  have hb : Before (topo_load_order enum g).1 d n :=
    hinv.obefore n hno d (by rw [hdeps]; exact hd)
  exact before_indices hb

/-- Witness for C1: in the end-to-end fixture (acyclic), `Lib1`, a
dependency of `App`, appears at an earlier index than `App` in the order
computed with the canonical set enumeration. -/
theorem topo_deps_first_witness :
    ((keysOf fixtureGraph).Nodup ∧ Acyclic fixtureGraph ∧
     ("App", ["Lib1", "Lib2"]) ∈ fixtureGraph ∧ ("Lib1") ∈ ["Lib1", "Lib2"]) ∧
    (∃ i j : Nat, i < j ∧ (topo_canon fixtureGraph).1[i]? = some ("Lib1") ∧
      (topo_canon fixtureGraph).1[j]? = some ("App")) := by
  refine ⟨⟨by decide, by decide, by decide, by decide⟩, ?_⟩
  exact topo_deps_first fixtureGraph (universeList fixtureGraph) ("App") ("Lib1")
    ["Lib1", "Lib2"] (by decide) (List.Perm.refl _) (by decide) (by decide)
    (by decide)

/-- Claim C9: the two outputs of `topo_load_order` partition the node
universe — the order and the cyclic remainder are each duplicate-free,
disjoint, and together cover exactly the union of all keys and all
dependency values. -/
theorem topo_partition (g : Graph) (enum : List String)
    (hkeys : (keysOf g).Nodup) (henum : enum.Perm (universeList g)) :
    (topo_load_order enum g).1.Nodup ∧
    (topo_load_order enum g).2.Nodup ∧
    (∀ x ∈ (topo_load_order enum g).1, x ∉ (topo_load_order enum g).2) ∧
    (∀ x, x ∈ universeList g ↔
      (x ∈ (topo_load_order enum g).1 ∨ x ∈ (topo_load_order enum g).2)) := by
  obtain ⟨m, hinv, hcyc⟩ := topo_spec g enum hkeys henum
  have henun : enum.Nodup := henum.nodup_iff.mpr (nodup_universeList g)
  refine ⟨hinv.onodup, ?_, ?_, ?_⟩
  · rw [hcyc]
    exact henun.filter _
  · intro x hx hx2
    have h0 := kinv_ozero hinv x hx
    rw [hcyc] at hx2
    have := List.of_mem_filter hx2
    simp only [decide_eq_true_eq] at this
    omega
  · intro x
    constructor
    · intro hx
      have hxe : x ∈ enum := henum.mem_iff.mpr hx
      by_cases h0 : (alookup m x).getD 0 = 0
      · rcases hinv.zeroin x hxe h0 with h | h
        · exact Or.inl h
        · simp at h
      · refine Or.inr ?_
        rw [hcyc]
        refine List.mem_filter.mpr ⟨hxe, ?_⟩
        have := kinv_val_nonneg hinv x
        simp only [decide_eq_true_eq]
        omega
    · rintro (h | h)
      · exact henum.mem_iff.mp (hinv.omem x h)
      · rw [hcyc] at h
        exact henum.mem_iff.mp (List.mem_filter.mp h).1

/-- Witness for C9 on the two-node cycle: both outputs are duplicate-free
and the universe membership equivalence holds at the concrete node `A`. -/
theorem topo_partition_witness :
    ((topo_canon cycleGraph).1.Nodup ∧ (topo_canon cycleGraph).2.Nodup) ∧
    (("A") ∈ universeList cycleGraph ↔
      (("A") ∈ (topo_canon cycleGraph).1 ∨ ("A") ∈ (topo_canon cycleGraph).2)) := by
  have h := topo_partition cycleGraph (universeList cycleGraph)
    (by decide) (List.Perm.refl _)
  exact ⟨⟨h.1, h.2.1⟩, h.2.2.2 ("A")⟩

/-! ### Claim C6: mutual-edge rendering in `render_svg` -/

/-- `pos.get(n, (0, 0))`. -/
def nodePos (pos : List (String × (Int × Int))) (n : String) : Int × Int :=
  (alookup pos n).getD (0, 0)

/-- The offset applied to the two lines of the mutual pair drawn from the
edge `A -> B`. -/
noncomputable def pairOffset (pos : List (String × (Int × Int))) (A B : String) :
    ℝ × ℝ :=
  lineOffset ((nodePos pos B).1 - (nodePos pos A).1)
    ((nodePos pos B).2 - (nodePos pos A).2)

/-- The `<line>` element the renderer emits for direction `A -> B` of a
mutual pair: the straight segment from `A`'s position to `B`'s position,
both endpoints translated by the pair offset. -/
noncomputable def expectedLine (pos : List (String × (Int × Int))) (A B : String) :
    SvgLine :=
  ⟨A, B,
   (((nodePos pos A).1 : ℝ) + (pairOffset pos A B).1,
    ((nodePos pos A).2 : ℝ) + (pairOffset pos A B).2),
   (((nodePos pos B).1 : ℝ) + (pairOffset pos A B).1,
    ((nodePos pos B).2 : ℝ) + (pairOffset pos A B).2)⟩

theorem mem_edgesOf_of_dep {g : Graph} {n d : String} (h : d ∈ depsOf g n) :
    (n, d) ∈ edgesOf g := by
  unfold depsOf at h
  cases hl : alookup g n with
  | none =>
    rw [hl] at h
    simp at h
  | some ds =>
    rw [hl] at h
    simp only [Option.getD_some] at h
    exact List.mem_flatMap.mpr ⟨(n, ds), alookup_mem hl,
      List.mem_map.mpr ⟨d, h, rfl⟩⟩

theorem lineOffset_neg (dx dy : Int) :
    lineOffset (-dx) (-dy) = (-(lineOffset dx dy).1, -(lineOffset dx dy).2) := by
  unfold lineOffset
  by_cases h : dx = 0 ∧ dy = 0
  · rw [if_pos h, if_pos (by omega : (-dx = 0 ∧ -dy = 0))]
    exact Prod.ext (by push_cast; ring) (by push_cast; ring)
  · rw [if_neg h, if_neg (by omega : ¬ (-dx = 0 ∧ -dy = 0))]
    have hsq : ((-dx : Int) : ℝ) ^ 2 + ((-dy : Int) : ℝ) ^ 2 =
        (dx : ℝ) ^ 2 + (dy : ℝ) ^ 2 := by
      push_cast
      ring
    rw [hsq]
    exact Prod.ext (by push_cast; ring) (by push_cast; ring)

theorem pairOffset_neg (pos : List (String × (Int × Int))) (A B : String) :
    pairOffset pos B A = (-(pairOffset pos A B).1, -(pairOffset pos A B).2) := by
  unfold pairOffset
  rw [show (nodePos pos A).1 - (nodePos pos B).1 =
      -((nodePos pos B).1 - (nodePos pos A).1) from by ring,
    show (nodePos pos A).2 - (nodePos pos B).2 =
      -((nodePos pos B).2 - (nodePos pos A).2) from by ring,
    lineOffset_neg]

theorem lineOffset_spec (dx dy : Int) (h : ¬ (dx = 0 ∧ dy = 0)) :
    (lineOffset dx dy).1 * (dx : ℝ) + (lineOffset dx dy).2 * (dy : ℝ) = 0 ∧
    (lineOffset dx dy).1 ^ 2 + (lineOffset dx dy).2 ^ 2 = 100 := by
  unfold lineOffset
  rw [if_neg h]
  have hpos : 0 < (dx : ℝ) ^ 2 + (dy : ℝ) ^ 2 := by
    rcases not_and_or.mp h with h | h
    · have hdx : (dx : ℝ) ≠ 0 := Int.cast_ne_zero.mpr h
      positivity
    · have hdy : (dy : ℝ) ≠ 0 := Int.cast_ne_zero.mpr h
      positivity
  have hL : 0 < Real.sqrt ((dx : ℝ) ^ 2 + (dy : ℝ) ^ 2) := Real.sqrt_pos.mpr hpos
  have hL2 : Real.sqrt ((dx : ℝ) ^ 2 + (dy : ℝ) ^ 2) ^ 2 =
      (dx : ℝ) ^ 2 + (dy : ℝ) ^ 2 := Real.sq_sqrt hpos.le
  constructor
  · ring
  · have hLne : Real.sqrt ((dx : ℝ) ^ 2 + (dy : ℝ) ^ 2) ≠ 0 := ne_of_gt hL
    field_simp
    nlinarith [hL2]

/-- Invariant for the edge-drawing loop, tracking one mutual pair `{A, B}`:
either the pair is unprocessed and no line of either direction has been
emitted, or it is fully processed and exactly one line per direction — with
the offset endpoints — has been emitted. -/
def MutR (pos : List (String × (Int × Int))) (A B : String)
    (st : List (String × String) × List SvgLine) : Prop :=
  (A, B) ∈ st.1 ∧ (B, A) ∈ st.1 ∧
  st.2.filter (fun e => decide (e.src = A ∧ e.dst = B)) = [expectedLine pos A B] ∧
  st.2.filter (fun e => decide (e.src = B ∧ e.dst = A)) = [expectedLine pos B A]

def MutInv (pos : List (String × (Int × Int))) (A B : String)
    (st : List (String × String) × List SvgLine) : Prop :=
  ((A, B) ∉ st.1 ∧ (B, A) ∉ st.1 ∧
   st.2.filter (fun e => decide (e.src = A ∧ e.dst = B)) = [] ∧
   st.2.filter (fun e => decide (e.src = B ∧ e.dst = A)) = []) ∨
  MutR pos A B st


theorem filter_two_fst {p : SvgLine → Bool} {l : List SvgLine} {a b : SvgLine}
    (hl : l.filter p = []) (ha : p a = true) (hb : p b = false) :
    (l ++ [a, b]).filter p = [a] := by
  rw [List.filter_append, hl, List.nil_append]
  simp [List.filter_cons, ha, hb]

theorem filter_two_snd {p : SvgLine → Bool} {l : List SvgLine} {a b : SvgLine}
    (hl : l.filter p = []) (ha : p a = false) (hb : p b = true) :
    (l ++ [a, b]).filter p = [b] := by
  rw [List.filter_append, hl, List.nil_append]
  simp [List.filter_cons, ha, hb]

theorem filter_one_keep {p : SvgLine → Bool} {l : List SvgLine} {a : SvgLine}
    {r : List SvgLine} (hl : l.filter p = r) (ha : p a = false) :
    (l ++ [a]).filter p = r := by
  rw [List.filter_append, hl]
  simp [List.filter_cons, ha]

theorem filter_two_keep {p : SvgLine → Bool} {l : List SvgLine} {a b : SvgLine}
    {r : List SvgLine} (hl : l.filter p = r) (ha : p a = false) (hb : p b = false) :
    (l ++ [a, b]).filter p = r := by
  rw [List.filter_append, hl]
  simp [List.filter_cons, ha, hb]

theorem mutInv_step (pos : List (String × (Int × Int)))
    (edges : List (String × String)) (A B : String) (hne : ¬ A = B)
    (hABe : (A, B) ∈ edges) (hBAe : (B, A) ∈ edges)
    (st : List (String × String) × List SvgLine) (e : String × String)
    (hinv : MutInv pos A B st) :
    MutInv pos A B (svgEdgeStep pos edges st e) ∧
    (MutR pos A B st → MutR pos A B (svgEdgeStep pos edges st e)) ∧
    (e = (A, B) → MutR pos A B (svgEdgeStep pos edges st e)) := by
  obtain ⟨s, d⟩ := e
  simp only [svgEdgeStep]
  by_cases h1 : (d, s) ∈ edges ∧ (s, d) ∉ st.1 ∧ (d, s) ∉ st.1
  · rw [if_pos h1]
    by_cases hsA : s = A ∧ d = B
    · obtain ⟨rfl, rfl⟩ := hsA
      rcases hinv with ⟨hL1, hL2, hF1, hF2⟩ | hR
      · have hl2eq : (⟨d, s,
            (((nodePos pos d).1 : ℝ) - (pairOffset pos s d).1,
             ((nodePos pos d).2 : ℝ) - (pairOffset pos s d).2),
            (((nodePos pos s).1 : ℝ) - (pairOffset pos s d).1,
             ((nodePos pos s).2 : ℝ) - (pairOffset pos s d).2)⟩ : SvgLine) =
            expectedLine pos d s := by
          unfold expectedLine
          rw [pairOffset_neg pos s d]
          simp only [SvgLine.mk.injEq, Prod.mk.injEq]
          refine ⟨trivial, trivial, ⟨?_, ?_⟩, ⟨?_, ?_⟩⟩ <;> ring
        have hright : MutR pos s d (st.1 ++ [(s, d), (d, s)],
            st.2 ++
              [⟨s, d,
                (((nodePos pos s).1 : ℝ) + (pairOffset pos s d).1,
                 ((nodePos pos s).2 : ℝ) + (pairOffset pos s d).2),
                (((nodePos pos d).1 : ℝ) + (pairOffset pos s d).1,
                 ((nodePos pos d).2 : ℝ) + (pairOffset pos s d).2)⟩,
               ⟨d, s,
                (((nodePos pos d).1 : ℝ) - (pairOffset pos s d).1,
                 ((nodePos pos d).2 : ℝ) - (pairOffset pos s d).2),
                (((nodePos pos s).1 : ℝ) - (pairOffset pos s d).1,
                 ((nodePos pos s).2 : ℝ) - (pairOffset pos s d).2)⟩]) := by
          refine ⟨by simp, by simp, ?_, ?_⟩
          · refine filter_two_fst hF1 (by simp) ?_
            show decide ((d : String) = s ∧ (s : String) = d) = false
            simp only [decide_eq_false_iff_not]
            rintro ⟨hc, -⟩
            exact hne hc.symm
          · rw [filter_two_snd hF2 ?ha (by simp), hl2eq]
            case ha =>
              show decide ((s : String) = d ∧ (d : String) = s) = false
              simp only [decide_eq_false_iff_not]
              rintro ⟨hc, -⟩
              exact hne hc
        exact ⟨Or.inr hright, fun _ => hright, fun _ => hright⟩
      · exact absurd hR.1 h1.2.1
    · by_cases hsB : s = B ∧ d = A
      · obtain ⟨rfl, rfl⟩ := hsB
        rcases hinv with ⟨hL1, hL2, hF1, hF2⟩ | hR
        · have hl2eq : (⟨d, s,
              (((nodePos pos d).1 : ℝ) - (pairOffset pos s d).1,
               ((nodePos pos d).2 : ℝ) - (pairOffset pos s d).2),
              (((nodePos pos s).1 : ℝ) - (pairOffset pos s d).1,
               ((nodePos pos s).2 : ℝ) - (pairOffset pos s d).2)⟩ : SvgLine) =
              expectedLine pos d s := by
            unfold expectedLine
            rw [pairOffset_neg pos s d]
            simp only [SvgLine.mk.injEq, Prod.mk.injEq]
            refine ⟨trivial, trivial, ⟨?_, ?_⟩, ⟨?_, ?_⟩⟩ <;> ring
          have hright : MutR pos d s (st.1 ++ [(s, d), (d, s)],
              st.2 ++
                [⟨s, d,
                  (((nodePos pos s).1 : ℝ) + (pairOffset pos s d).1,
                   ((nodePos pos s).2 : ℝ) + (pairOffset pos s d).2),
                  (((nodePos pos d).1 : ℝ) + (pairOffset pos s d).1,
                   ((nodePos pos d).2 : ℝ) + (pairOffset pos s d).2)⟩,
                 ⟨d, s,
                  (((nodePos pos d).1 : ℝ) - (pairOffset pos s d).1,
                   ((nodePos pos d).2 : ℝ) - (pairOffset pos s d).2),
                  (((nodePos pos s).1 : ℝ) - (pairOffset pos s d).1,
                   ((nodePos pos s).2 : ℝ) - (pairOffset pos s d).2)⟩]) := by
            refine ⟨by simp, by simp, ?_, ?_⟩
            · rw [filter_two_snd hF1 ?ha (by simp), hl2eq]
              case ha =>
                show decide ((s : String) = d ∧ (d : String) = s) = false
                simp only [decide_eq_false_iff_not]
                rintro ⟨hc, -⟩
                exact hne hc.symm
            · refine filter_two_fst hF2 (by simp) ?_
              show decide ((d : String) = s ∧ (s : String) = d) = false
              simp only [decide_eq_false_iff_not]
              rintro ⟨hc, -⟩
              exact hne hc
          exact ⟨Or.inr hright, fun _ => hright,
            fun hcon => absurd (congrArg Prod.fst hcon) (fun hc => hne hc.symm)⟩
        · exact absurd hR.2.1 h1.2.1
      · have hne1 : ¬ ((A : String), B) = (s, d) := fun hc =>
          hsA ⟨(congrArg Prod.fst hc).symm, (congrArg Prod.snd hc).symm⟩
        have hne2 : ¬ ((A : String), B) = (d, s) := fun hc =>
          hsB ⟨(congrArg Prod.snd hc).symm, (congrArg Prod.fst hc).symm⟩
        have hne3 : ¬ ((B : String), A) = (s, d) := fun hc =>
          hsB ⟨(congrArg Prod.fst hc).symm, (congrArg Prod.snd hc).symm⟩
        have hne4 : ¬ ((B : String), A) = (d, s) := fun hc =>
          hsA ⟨(congrArg Prod.snd hc).symm, (congrArg Prod.fst hc).symm⟩
        have hABiff : ((A, B) ∈ st.1 ++ [(s, d), (d, s)]) ↔ (A, B) ∈ st.1 := by
          simp [List.mem_append, hne1, hne2]
        have hBAiff : ((B, A) ∈ st.1 ++ [(s, d), (d, s)]) ↔ (B, A) ∈ st.1 := by
          simp [List.mem_append, hne3, hne4]
        have hpA1 : (decide ((s : String) = A ∧ (d : String) = B)) = false := by
          simp only [decide_eq_false_iff_not]
          exact hsA
        have hpA2 : (decide ((d : String) = A ∧ (s : String) = B)) = false := by
          simp only [decide_eq_false_iff_not]
          rintro ⟨hc1, hc2⟩
          exact hsB ⟨hc2, hc1⟩
        have hpB1 : (decide ((s : String) = B ∧ (d : String) = A)) = false := by
          simp only [decide_eq_false_iff_not]
          exact hsB
        have hpB2 : (decide ((d : String) = B ∧ (s : String) = A)) = false := by
          simp only [decide_eq_false_iff_not]
          rintro ⟨hc1, hc2⟩
          exact hsA ⟨hc2, hc1⟩
        have hmain : MutInv pos A B (st.1 ++ [(s, d), (d, s)],
            st.2 ++
              [⟨s, d,
                (((nodePos pos s).1 : ℝ) + (pairOffset pos s d).1,
                 ((nodePos pos s).2 : ℝ) + (pairOffset pos s d).2),
                (((nodePos pos d).1 : ℝ) + (pairOffset pos s d).1,
                 ((nodePos pos d).2 : ℝ) + (pairOffset pos s d).2)⟩,
               ⟨d, s,
                (((nodePos pos d).1 : ℝ) - (pairOffset pos s d).1,
                 ((nodePos pos d).2 : ℝ) - (pairOffset pos s d).2),
                (((nodePos pos s).1 : ℝ) - (pairOffset pos s d).1,
                 ((nodePos pos s).2 : ℝ) - (pairOffset pos s d).2)⟩]) ∧
            (MutR pos A B st → MutR pos A B (st.1 ++ [(s, d), (d, s)],
            st.2 ++
              [⟨s, d,
                (((nodePos pos s).1 : ℝ) + (pairOffset pos s d).1,
                 ((nodePos pos s).2 : ℝ) + (pairOffset pos s d).2),
                (((nodePos pos d).1 : ℝ) + (pairOffset pos s d).1,
                 ((nodePos pos d).2 : ℝ) + (pairOffset pos s d).2)⟩,
               ⟨d, s,
                (((nodePos pos d).1 : ℝ) - (pairOffset pos s d).1,
                 ((nodePos pos d).2 : ℝ) - (pairOffset pos s d).2),
                (((nodePos pos s).1 : ℝ) - (pairOffset pos s d).1,
                 ((nodePos pos s).2 : ℝ) - (pairOffset pos s d).2)⟩])) := by
          constructor
          · rcases hinv with ⟨hL1, hL2, hF1, hF2⟩ | ⟨hR1, hR2, hF1, hF2⟩
            · exact Or.inl ⟨fun hc => hL1 (hABiff.mp hc), fun hc => hL2 (hBAiff.mp hc),
                filter_two_keep hF1 hpA1 hpA2, filter_two_keep hF2 hpB1 hpB2⟩
            · exact Or.inr ⟨hABiff.mpr hR1, hBAiff.mpr hR2,
                filter_two_keep hF1 hpA1 hpA2, filter_two_keep hF2 hpB1 hpB2⟩
          · rintro ⟨hR1, hR2, hF1, hF2⟩
            exact ⟨hABiff.mpr hR1, hBAiff.mpr hR2,
              filter_two_keep hF1 hpA1 hpA2, filter_two_keep hF2 hpB1 hpB2⟩
        exact ⟨hmain.1, hmain.2,
          fun hcon => absurd hcon (fun hc =>
            hsA ⟨congrArg Prod.fst hc, congrArg Prod.snd hc⟩)⟩
  · rw [if_neg h1]
    by_cases h2 : (d, s) ∉ edges
    · rw [if_pos h2]
      have hpA : (decide ((s : String) = A ∧ (d : String) = B)) = false := by
        simp only [decide_eq_false_iff_not]
        rintro ⟨rfl, rfl⟩
        exact h2 hBAe
      have hpB : (decide ((s : String) = B ∧ (d : String) = A)) = false := by
        simp only [decide_eq_false_iff_not]
        rintro ⟨rfl, rfl⟩
        exact h2 hABe
      have hmain : MutInv pos A B (st.1,
            st.2 ++ [⟨s, d, (((nodePos pos s).1 : ℝ), ((nodePos pos s).2 : ℝ)),
              (((nodePos pos d).1 : ℝ), ((nodePos pos d).2 : ℝ))⟩]) ∧
          (MutR pos A B st → MutR pos A B (st.1,
            st.2 ++ [⟨s, d, (((nodePos pos s).1 : ℝ), ((nodePos pos s).2 : ℝ)),
              (((nodePos pos d).1 : ℝ), ((nodePos pos d).2 : ℝ))⟩])) := by
        constructor
        · rcases hinv with ⟨hL1, hL2, hF1, hF2⟩ | ⟨hR1, hR2, hF1, hF2⟩
          · exact Or.inl ⟨hL1, hL2, filter_one_keep hF1 hpA, filter_one_keep hF2 hpB⟩
          · exact Or.inr ⟨hR1, hR2, filter_one_keep hF1 hpA, filter_one_keep hF2 hpB⟩
        · rintro ⟨hR1, hR2, hF1, hF2⟩
          exact ⟨hR1, hR2, filter_one_keep hF1 hpA, filter_one_keep hF2 hpB⟩
      refine ⟨hmain.1, hmain.2, fun hcon => ?_⟩
      have hs : s = A := congrArg Prod.fst hcon
      have hd : d = B := congrArg Prod.snd hcon
      subst hs
      subst hd
      exact absurd hBAe h2
    · rw [if_neg h2]
      push_neg at h2
      refine ⟨hinv, id, fun hcon => ?_⟩
      have hs : s = A := congrArg Prod.fst hcon
      have hd : d = B := congrArg Prod.snd hcon
      subst hs
      subst hd
      rcases hinv with ⟨hL1, hL2, -, -⟩ | hR
      · exact absurd ⟨h2, hL1, hL2⟩ h1
      · exact hR

theorem mutInv_fold (pos : List (String × (Int × Int)))
    (edges : List (String × String)) (A B : String) (hne : ¬ A = B)
    (hABe : (A, B) ∈ edges) (hBAe : (B, A) ∈ edges) :
    ∀ (l : List (String × String)) (st), MutInv pos A B st →
    MutInv pos A B (l.foldl (svgEdgeStep pos edges) st) ∧
    (MutR pos A B st → MutR pos A B (l.foldl (svgEdgeStep pos edges) st)) := by
  intro l
  induction l with
  | nil => exact fun st h => ⟨h, id⟩
  | cons e rest ih =>
    intro st h
    have hstep := mutInv_step pos edges A B hne hABe hBAe st e h
    obtain ⟨h1, h2⟩ := ih (svgEdgeStep pos edges st e) hstep.1
    exact ⟨h1, fun hr => h2 (hstep.2.1 hr)⟩

/-- Claim C6: for a mutual pair `A <-> B` the SVG edge loop emits exactly
two `<line>` elements — one per direction, processed once no matter which
direction is met first — whose endpoints are the two node positions
translated by the pair offset; the two directions use opposite offsets, and
for distinct positions the offset is perpendicular to the `A`–`B` segment
with squared length `10²`. -/
theorem render_mutual_pair (g : Graph) (pos : List (String × (Int × Int)))
    (A B : String) (hAB : B ∈ depsOf g A) (hBA : A ∈ depsOf g B)
    (hne : ¬ A = B) :
    (svgEdgeLines g pos).filter (fun e => decide (e.src = A ∧ e.dst = B)) =
      [expectedLine pos A B] ∧
    (svgEdgeLines g pos).filter (fun e => decide (e.src = B ∧ e.dst = A)) =
      [expectedLine pos B A] ∧
    (svgEdgeLines g pos).countP
      (fun e => decide ((e.src = A ∧ e.dst = B) ∨ (e.src = B ∧ e.dst = A))) = 2 ∧
    pairOffset pos B A = (-(pairOffset pos A B).1, -(pairOffset pos A B).2) ∧
    (¬ nodePos pos A = nodePos pos B →
      (pairOffset pos A B).1 * (((nodePos pos B).1 - (nodePos pos A).1 : Int) : ℝ) +
        (pairOffset pos A B).2 * (((nodePos pos B).2 - (nodePos pos A).2 : Int) : ℝ)
        = 0 ∧
      (pairOffset pos A B).1 ^ 2 + (pairOffset pos A B).2 ^ 2 = 100) := by
  have hABe := mem_edgesOf_of_dep hAB
  have hBAe := mem_edgesOf_of_dep hBA
  obtain ⟨l₁, l₂, hsplit⟩ := List.append_of_mem hABe
  have hR : MutR pos A B
      ((edgesOf g).foldl (svgEdgeStep pos (edgesOf g)) ([], [])) := by
    have hdecomp : (edgesOf g).foldl (svgEdgeStep pos (edgesOf g)) ([], []) =
        l₂.foldl (svgEdgeStep pos (edgesOf g))
          (svgEdgeStep pos (edgesOf g)
            (l₁.foldl (svgEdgeStep pos (edgesOf g)) ([], [])) (A, B)) := by
      rw [congrArg (fun l => List.foldl (svgEdgeStep pos (edgesOf g)) ([], []) l)
        hsplit, List.foldl_append, List.foldl_cons]
    have hinv0 : MutInv pos A B (([], []) : List (String × String) × List SvgLine) :=
      Or.inl ⟨by simp, by simp, rfl, rfl⟩
    rw [hdecomp]
    have h1 := (mutInv_fold pos (edgesOf g) A B hne hABe hBAe l₁ ([], []) hinv0).1
    have h2 := (mutInv_step pos (edgesOf g) A B hne hABe hBAe _ (A, B) h1).2.2 rfl
    exact (mutInv_fold pos (edgesOf g) A B hne hABe hBAe l₂ _ (Or.inr h2)).2 h2
  obtain ⟨-, -, hf1, hf2⟩ := hR
  have hcnt : ∀ (L : List SvgLine),
      L.countP (fun e => decide ((e.src = A ∧ e.dst = B) ∨ (e.src = B ∧ e.dst = A))) =
      L.countP (fun e => decide (e.src = A ∧ e.dst = B)) +
      L.countP (fun e => decide (e.src = B ∧ e.dst = A)) := by
    intro L
    induction L with
    | nil => rfl
    | cons x L ih =>
      rw [List.countP_cons, List.countP_cons, List.countP_cons, ih]
      by_cases hx1 : x.src = A ∧ x.dst = B
      · have hx2 : ¬ (x.src = B ∧ x.dst = A) := fun hc => hne (hx1.1.symm.trans hc.1)
        rw [show (decide ((x.src = A ∧ x.dst = B) ∨ (x.src = B ∧ x.dst = A))) = true
            from by simp [hx1],
          show (decide (x.src = A ∧ x.dst = B)) = true from by simp [hx1],
          show (decide (x.src = B ∧ x.dst = A)) = false from by
            simp only [decide_eq_false_iff_not]
            exact hx2]
        simp only [if_true, Bool.false_eq_true, if_false]
        omega
      · by_cases hx2 : x.src = B ∧ x.dst = A
        · rw [show (decide ((x.src = A ∧ x.dst = B) ∨ (x.src = B ∧ x.dst = A))) = true
              from by simp [hx2],
            show (decide (x.src = A ∧ x.dst = B)) = false from by
              simp only [decide_eq_false_iff_not]
              exact hx1,
            show (decide (x.src = B ∧ x.dst = A)) = true from by simp [hx2]]
          simp only [if_true, Bool.false_eq_true, if_false]
          omega
        · rw [show (decide ((x.src = A ∧ x.dst = B) ∨ (x.src = B ∧ x.dst = A))) = false
              from by
                simp only [decide_eq_false_iff_not]
                rintro (h | h)
                exacts [hx1 h, hx2 h],
            show (decide (x.src = A ∧ x.dst = B)) = false from by
              simp only [decide_eq_false_iff_not]
              exact hx1,
            show (decide (x.src = B ∧ x.dst = A)) = false from by
              simp only [decide_eq_false_iff_not]
              exact hx2]
          simp only [Bool.false_eq_true, if_false]
          omega
  refine ⟨hf1, hf2, ?_, pairOffset_neg pos A B, ?_⟩
  · rw [hcnt, List.countP_eq_length_filter, List.countP_eq_length_filter,
      show (svgEdgeLines g pos) =
        (List.foldl (svgEdgeStep pos (edgesOf g)) ([], []) (edgesOf g)).2 from rfl,
      hf1, hf2]
    rfl
  · intro hpos
    apply lineOffset_spec
    rintro ⟨hx, hy⟩
    apply hpos
    have h1 : (nodePos pos B).1 = (nodePos pos A).1 := by omega
    have h2 : (nodePos pos B).2 = (nodePos pos A).2 := by omega
    exact Prod.ext h1.symm h2.symm

/-- Concrete positions for the mutual-pair witness. -/
def mutPos : List (String × (Int × Int)) := [("A", (100, 100)), ("B", (300, 100))]

/-- Witness for C6: on the two-node cycle `{A: [B], B: [A]}` with concrete
positions, the renderer emits exactly one `A -> B` line (with the offset
endpoints) and exactly two lines in total for the pair. -/
theorem render_mutual_pair_witness :
    (("B") ∈ depsOf cycleGraph ("A") ∧ ("A") ∈ depsOf cycleGraph ("B") ∧
     ¬ ("A" : String) = ("B")) ∧
    ((svgEdgeLines cycleGraph mutPos).filter
        (fun e => decide (e.src = ("A") ∧ e.dst = ("B"))) =
      [expectedLine mutPos ("A") ("B")] ∧
     (svgEdgeLines cycleGraph mutPos).countP
        (fun e => decide ((e.src = ("A") ∧ e.dst = ("B")) ∨
          (e.src = ("B") ∧ e.dst = ("A")))) = 2) := by
  have h := render_mutual_pair cycleGraph mutPos ("A") ("B")
    (by decide) (by decide) (by decide)
  exact ⟨⟨by decide, by decide, by decide⟩, h.1, h.2.2.1⟩

/-! ### Claim C7: determinism of layout and Mermaid output -/

theorem lexLe_total : ∀ a b : List Char, lexLe a b = true ∨ lexLe b a = true := by
  intro a
  induction a with
  | nil => intro b; exact Or.inl rfl
  | cons x xs ih =>
    intro b
    cases b with
    | nil => exact Or.inr rfl
    | cons y ys =>
      simp only [lexLe]
      rcases Nat.lt_trichotomy x.toNat y.toNat with h | h | h
      · left
        rw [if_pos h]
      · rcases ih ys with h2 | h2
        · left
          rw [if_neg (by omega), if_pos h]
          exact h2
        · right
          rw [if_neg (by omega), if_pos h.symm]
          exact h2
      · right
        rw [if_pos h]

theorem lexLe_trans : ∀ a b c : List Char,
    lexLe a b = true → lexLe b c = true → lexLe a c = true := by
  intro a
  induction a with
  | nil => intro b c _ _; rfl
  | cons x xs ih =>
    intro b c hab hbc
    cases b with
    | nil => simp [lexLe] at hab
    | cons y ys =>
      cases c with
      | nil => simp [lexLe] at hbc
      | cons z zs =>
        simp only [lexLe] at hab hbc ⊢
        rcases Nat.lt_trichotomy x.toNat y.toNat with h1 | h1 | h1 <;>
          rcases Nat.lt_trichotomy y.toNat z.toNat with h2 | h2 | h2
        all_goals first
          | (rw [if_pos (by omega)])
          | (rw [if_neg (by omega), if_pos (by omega)]
             rw [if_neg (by omega), if_pos (by omega)] at hab hbc
             exact ih ys zs hab hbc)
          | (exfalso
             rw [if_neg (by omega), if_neg (by omega)] at hab
             exact absurd hab (by simp))
          | (exfalso
             rw [if_neg (by omega), if_neg (by omega)] at hbc
             exact absurd hbc (by simp))

theorem char_toNat_inj {a b : Char} (h : a.toNat = b.toNat) : a = b := by
  cases a
  cases b
  simp only [Char.toNat] at h
  congr 1
  exact UInt32.toNat.inj h

theorem lexLe_antisymm : ∀ a b : List Char,
    lexLe a b = true → lexLe b a = true → a = b := by
  intro a
  induction a with
  | nil =>
    intro b _ hba
    cases b with
    | nil => rfl
    | cons y ys => simp [lexLe] at hba
  | cons x xs ih =>
    intro b hab hba
    cases b with
    | nil => simp [lexLe] at hab
    | cons y ys =>
      simp only [lexLe] at hab hba
      rcases Nat.lt_trichotomy x.toNat y.toNat with h1 | h1 | h1
      · exfalso
        rw [if_neg (by omega), if_neg (by omega)] at hba
        exact absurd hba (by simp)
      · rw [if_neg (by omega), if_pos h1] at hab
        rw [if_neg (by omega), if_pos h1.symm] at hba
        rw [char_toNat_inj h1, ih ys hab hba]
      · exfalso
        rw [if_neg (by omega), if_neg (by omega)] at hab
        exact absurd hab (by simp)

instance : IsTotal String strLe :=
  ⟨fun a b => lexLe_total a.data b.data⟩

instance : IsTrans String strLe :=
  ⟨fun a b c => lexLe_trans a.data b.data c.data⟩

instance : IsAntisymm String strLe :=
  ⟨fun a b hab hba => by
    cases a
    cases b
    exact congrArg String.mk (lexLe_antisymm _ _ hab hba)⟩

theorem sortStr_perm_eq {l₁ l₂ : List String} (h : l₁.Perm l₂) :
    sortStr l₁ = sortStr l₂ :=
  List.eq_of_perm_of_sorted
    ((List.perm_insertionSort strLe l₁).trans
      (h.trans (List.perm_insertionSort strLe l₂).symm))
    (List.sorted_insertionSort strLe l₁) (List.sorted_insertionSort strLe l₂)

/-- Counterexample graph for C7: two isolated nodes, neither reachable from
the root `R`, so both are laid out by the fallback loop `for n in nodes:`,
whose iteration order is the set's hash order. -/
def gIso : Graph := [("A", []), ("B", [])]

/-- Witness graph for the amended C7 statement: every node reachable from
the root. -/
def gW : Graph := [("R", ["S"]), ("S", [])]

theorem alookup_append_isSome {α : Type} (l₁ l₂ : List (String × α)) (k : String)
    (h : (alookup l₁ k).isSome = true ∨ (alookup l₂ k).isSome = true) :
    (alookup (l₁ ++ l₂) k).isSome = true := by
  rw [alookup_append]
  rcases h with h | h
  · obtain ⟨v, hv⟩ := Option.isSome_iff_exists.mp h
    rw [hv]
    rfl
  · cases h1 : alookup l₁ k with
    | some v => rfl
    | none => exact h

theorem alookup_block_isSome (arr : List String) (n : String) (h : n ∈ arr) (x : Int) :
    (alookup (arr.enum.map
      (fun q => (q.2, ((100 + x * 200, 100 + (q.1 : Int) * 100))))) n).isSome = true := by
  rw [alookup_isSome_iff, List.map_map]
  have he : (Prod.fst ∘ fun q : Nat × String =>
      (q.2, ((100 + x * 200, 100 + (q.1 : Int) * 100)))) = Prod.snd := rfl
  rw [he, List.enum_map_snd]
  exact h

theorem psetdefault_preserves : ∀ (acc : List (Nat × List String)) (l : Nat) (n : String)
    (l₀ : Nat) (arr₀ : List String), (l₀, arr₀) ∈ acc →
    ∃ arr', (l₀, arr') ∈ groupLevels.psetdefault acc l n ∧ ∀ y ∈ arr₀, y ∈ arr'
  | [], _, _, _, _, h => absurd h (List.not_mem_nil _)
  | (l', arr) :: rest, l, n, l₀, arr₀, h => by
    simp only [groupLevels.psetdefault]
    by_cases hl : l' = l
    · rw [if_pos hl]
      rcases List.mem_cons.mp h with he | hr
      · rw [Prod.mk.injEq] at he
        refine ⟨arr ++ [n], ?_, ?_⟩
        · rw [he.1]
          exact List.mem_cons_self _ _
        · intro y hy
          exact List.mem_append_left _ (he.2 ▸ hy)
      · exact ⟨arr₀, List.mem_cons_of_mem _ hr, fun _ hy => hy⟩
    · rw [if_neg hl]
      rcases List.mem_cons.mp h with he | hr
      · exact ⟨arr₀, List.mem_cons.mpr (Or.inl he), fun _ hy => hy⟩
      · obtain ⟨arr'', h1, h2⟩ := psetdefault_preserves rest l n l₀ arr₀ hr
        exact ⟨arr'', List.mem_cons_of_mem _ h1, h2⟩

theorem psetdefault_adds : ∀ (acc : List (Nat × List String)) (l : Nat) (n : String),
    ∃ arr, (l, arr) ∈ groupLevels.psetdefault acc l n ∧ n ∈ arr
  | [], l, n => ⟨[n], by simp [groupLevels.psetdefault]⟩
  | (l', arr) :: rest, l, n => by
    simp only [groupLevels.psetdefault]
    by_cases hl : l' = l
    · rw [if_pos hl]
      subst hl
      exact ⟨arr ++ [n], List.mem_cons_self _ _, List.mem_append_right _ (List.mem_singleton.mpr rfl)⟩
    · rw [if_neg hl]
      obtain ⟨arr'', h1, h2⟩ := psetdefault_adds rest l n
      exact ⟨arr'', List.mem_cons_of_mem _ h1, h2⟩

theorem groupFold_preserves : ∀ (lvl : List (String × Nat)) (acc : List (Nat × List String))
    (l₀ : Nat) (arr₀ : List String), (l₀, arr₀) ∈ acc →
    ∃ arr', (l₀, arr') ∈ lvl.foldl (fun per p => groupLevels.psetdefault per p.2 p.1) acc ∧
      ∀ y ∈ arr₀, y ∈ arr'
  | [], _, _, arr₀, h => ⟨arr₀, h, fun _ hy => hy⟩
  | p :: rest, acc, l₀, arr₀, h => by
    simp only [List.foldl_cons]
    obtain ⟨arr₁, h1, hs1⟩ := psetdefault_preserves acc p.2 p.1 l₀ arr₀ h
    obtain ⟨arr₂, h2, hs2⟩ := groupFold_preserves rest _ l₀ arr₁ h1
    exact ⟨arr₂, h2, fun y hy => hs2 y (hs1 y hy)⟩

theorem group_mem : ∀ (lvl : List (String × Nat)) (acc : List (Nat × List String))
    (n : String) (l : Nat), (n, l) ∈ lvl →
    ∃ arr, (l, arr) ∈ lvl.foldl (fun per p => groupLevels.psetdefault per p.2 p.1) acc ∧ n ∈ arr
  | [], _, _, _, h => absurd h (List.not_mem_nil _)
  | p :: rest, acc, n, l, h => by
    simp only [List.foldl_cons]
    rcases List.mem_cons.mp h with he | hr
    · subst he
      obtain ⟨arr, h1, h2⟩ := psetdefault_adds acc l n
      obtain ⟨arr', h3, hs⟩ := groupFold_preserves rest _ l arr h1
      exact ⟨arr', h3, hs n h2⟩
    · exact group_mem rest _ n l hr

theorem group_covers {lvl : List (String × Nat)} {n : String} {l : Nat}
    (h : (n, l) ∈ lvl) : ∃ arr, (l, arr) ∈ groupLevels lvl ∧ n ∈ arr := by
  unfold groupLevels
  exact group_mem lvl [] n l h

theorem basePos_covers : ∀ (per : List (Nat × List String))
    (pos0 : List (String × (Int × Int))) (n : String),
    ((∃ p ∈ per, n ∈ p.2) ∨ (alookup pos0 n).isSome = true) →
    (alookup (per.foldl
      (fun pos p => pos ++ (sortStr p.2).enum.map
        (fun q => (q.2, ((100 + (p.1 : Int) * 200, 100 + (q.1 : Int) * 100)))))
      pos0) n).isSome = true
  | [], pos0, n, h => by
    rcases h with ⟨p, hp, _⟩ | h
    · exact absurd hp (List.not_mem_nil _)
    · exact h
  | p :: rest, pos0, n, h => by
    simp only [List.foldl_cons]
    apply basePos_covers rest _ n
    rcases h with ⟨q, hq, hnq⟩ | h
    · rcases List.mem_cons.mp hq with he | hr
      · subst he
        refine Or.inr (alookup_append_isSome _ _ _ (Or.inr ?_))
        exact alookup_block_isSome (sortStr q.2) n
          (((List.perm_insertionSort strLe q.2).mem_iff).mpr hnq) (q.1 : Int)
      · exact Or.inl ⟨q, hr, hnq⟩
    · exact Or.inr (alookup_append_isSome _ _ _ (Or.inl h))

theorem base_covers (g : Graph) (root : String) (n : String)
    (h : (alookup (bfsLevels g root) n).isSome = true) :
    (alookup (positions_bfs [] g root) n).isSome = true := by
  obtain ⟨l, hl⟩ := Option.isSome_iff_exists.mp h
  obtain ⟨arr, hgrp, hn⟩ := group_covers (alookup_mem hl)
  have hper : ((l, sortStr arr) : Nat × List String) ∈
      (groupLevels (bfsLevels g root)).map (fun p => (p.1, sortStr p.2)) :=
    List.mem_map_of_mem _ hgrp
  have hns : n ∈ sortStr arr := ((List.perm_insertionSort strLe arr).mem_iff).mpr hn
  exact basePos_covers ((groupLevels (bfsLevels g root)).map (fun p => (p.1, sortStr p.2)))
    [] n (Or.inl ⟨(l, sortStr arr), hper, hns⟩)

theorem fallback_noop : ∀ (e : List String) (pos : List (String × (Int × Int))),
    (∀ n ∈ e, (alookup pos n).isSome = true) →
    e.foldl (fun pos n =>
      if (alookup pos n).isSome then pos
      else pos ++ [(n, ((100, 100 + (pos.length : Int) * 100)))]) pos = pos
  | [], _, _ => rfl
  | n :: rest, pos, h => by
    simp only [List.foldl_cons]
    rw [if_pos (h n (List.mem_cons_self _ _))]
    exact fallback_noop rest pos (fun m hm => h m (List.mem_cons_of_mem _ hm))

theorem positions_eq_base (g : Graph) (root : String) (e : List String)
    (h : ∀ n ∈ e, (alookup (positions_bfs [] g root) n).isSome = true) :
    positions_bfs e g root = positions_bfs [] g root := by
  have hx : positions_bfs e g root =
      e.foldl (fun pos n =>
        if (alookup pos n).isSome then pos
        else pos ++ [(n, ((100, 100 + (pos.length : Int) * 100)))])
      (positions_bfs [] g root) := rfl
  rw [hx]
  exact fallback_noop e (positions_bfs [] g root) h

/-- C7 counterexample: with two isolated nodes `A`, `B` and root `R`, two
iteration orders of the node set — both permutations of the same set — give
different coordinates for `A` in `positions_bfs`, because the unreachable-node
fallback loop assigns `y = 100 + len(pos) * 100` in set-iteration order.
With CPython string-hash randomisation the set order varies between runs, so
the layout is not identical across repeated runs. -/
theorem positions_enum_counterexample :
    (["A", "B", "R"] : List String).Perm (nodesList gIso ("R")) ∧
    (["B", "A", "R"] : List String).Perm (nodesList gIso ("R")) ∧
    alookup (positions_bfs ["A", "B", "R"] gIso ("R")) ("A") = some ((100, 200)) ∧
    alookup (positions_bfs ["B", "A", "R"] gIso ("R")) ("A") = some ((100, 300)) ∧
    ¬ positions_bfs ["A", "B", "R"] gIso ("R") = positions_bfs ["B", "A", "R"] gIso ("R") := by
  decide

/-- C7 (amended): `build_mermaid` is deterministic unconditionally — it sorts
the node set, so its output is the same for every iteration order of the set;
`positions_bfs` is deterministic whenever every node of the universe (plus
the root) receives a BFS level, i.e. is reachable from the root: the
set-iteration-dependent fallback loop then never fires. -/
theorem render_deterministic (g : Graph) (root : String)
    (m₁ m₂ e₁ e₂ : List String)
    (hm₁ : m₁.Perm (universeList g)) (hm₂ : m₂.Perm (universeList g))
    (he₁ : e₁.Perm (nodesList g root)) (he₂ : e₂.Perm (nodesList g root)) :
    build_mermaid m₁ g = build_mermaid m₂ g ∧
    ((∀ n ∈ nodesList g root, (alookup (bfsLevels g root) n).isSome = true) →
      positions_bfs e₁ g root = positions_bfs e₂ g root) := by
  constructor
  · unfold build_mermaid
    rw [sortStr_perm_eq (hm₁.trans hm₂.symm)]
  · intro hcov
    have k : ∀ e : List String, e.Perm (nodesList g root) →
        positions_bfs e g root = positions_bfs [] g root := by
      intro e he
      refine positions_eq_base g root e (fun n hn => ?_)
      exact base_covers g root n (hcov n (he.mem_iff.mp hn))
    rw [k e₁ he₁, k e₂ he₂]

/-- Witness for C7: on the two-node chain `R → S` the Mermaid text and the
layout agree for two different set-iteration orders (every node has a BFS
level here, so the layout conclusion fires as well). -/
theorem render_deterministic_witness :
    build_mermaid ["S", "R"] gW = build_mermaid ["R", "S"] gW ∧
    positions_bfs ["S", "R"] gW ("R") = positions_bfs ["R", "S"] gW ("R") :=
  have h := render_deterministic gW ("R") ["S", "R"] ["R", "S"] ["S", "R"] ["R", "S"]
    (by decide) (by decide) (by decide) (by decide)
  ⟨h.1, h.2 (by decide)⟩
